import Mathlib

/-!
# Address symbolication of `ptracer/ascii.c`

A shallow embedding of the symbol-table registry of `ptracer/ascii.c`
(`symcmp`, `build_symtab`, `symfind`, `syminit`, `initialise_mem_map`,
`__print_address`) followed by theorems about it.

Conventions of the embedding:

* `unsigned long`, `symvalue` and `bfd_vma` are 64-bit unsigned integers. They
  are natural numbers here, and every C operation that can wrap is written
  with an explicit `% 2 ^ 64`.
* `long` is `Int`.
* An array is a list. Reading or writing an index outside the list is
  undefined behaviour in C and is the fault `out_of_bounds` here.
* A `while` loop is a function with a fuel parameter; running out of fuel is
  the fault `out_of_fuel`.
* A `NULL` symbol pointer is `none`.
-/

namespace Ascii

/-! ## Faults -/

/-- Ways in which the embedded code can leave defined behaviour. -/
inductive fault where
  | out_of_bounds
  | out_of_fuel
  deriving DecidableEq, Repr

deriving instance DecidableEq for Except

/-- Array read `xs[i]`. -/
def read {α : Type} (xs : List α) (i : Nat) : Except fault α :=
  match xs[i]? with
  | some a => .ok a
  | none => .error .out_of_bounds

/-- Array write `xs[i] = a`. -/
def write {α : Type} (xs : List α) (i : Nat) (a : α) : Except fault (List α) :=
  if i < xs.length then .ok (xs.set i a) else .error .out_of_bounds

/-! ## Machine arithmetic -/

/-- Number of values of a 64-bit word. -/
def WORD : Nat := 2 ^ 64

/-- Subtraction of `unsigned long` values, which wraps around. -/
def sub64 (a b : Nat) : Nat := (a + (WORD - b % WORD)) % WORD

/-- Conversion of a `long` to `unsigned long`. -/
def to_ulong (x : Int) : Nat := (x % (WORD : Int)).toNat

/-! ## Data model -/

/-- A BFD symbol, as far as this file uses it: `bfd_asymbol_name` and
`bfd_asymbol_value`. -/
structure asymbol where
  name : String
  value : Nat
  deriving DecidableEq, Repr

/-- The accessor `bfd_asymbol_value`. -/
def bfd_asymbol_value (s : asymbol) : Nat := s.value

/-- The accessor `bfd_asymbol_name`. -/
def bfd_asymbol_name (s : asymbol) : String := s.name

/-- One entry of `sym_tables` (`struct sym_table`). -/
structure sym_table where
  symcount : Int
  syms : List asymbol
  base_address : Nat
  base_offset : Nat
  deriving DecidableEq, Repr

/-- The capacity of `sym_tables`. -/
def MAX_SYMS : Nat := 256

/-- The two globals `sym_tables` and `nr_sym_tables`. -/
structure registry where
  sym_tables : List sym_table
  nr_sym_tables : Nat
  deriving DecidableEq, Repr

/-- An entry of `sym_tables` as static storage initialises it. -/
def zero_table : sym_table := ⟨0, [], 0, 0⟩

/-- The globals at program start: `MAX_SYMS` zeroed tables, none registered. -/
def initial_registry : registry := ⟨List.replicate MAX_SYMS zero_table, 0⟩

/-! ## `symfind` -/

/-- The `for` loop of `symfind` (lines 61-72): the iterations `i`, `i + 1`, ...
with `n` iterations left; the state is `found` and `nearest`. The index
`nearest` is an `int` in the source; the indices it takes are below the
capacity of the registry, which an `int` holds. -/
def symfind_scan (sym_tables : List sym_table) (addr : Nat) :
    Nat → Nat → Bool → Nat → Except fault (Bool × Nat)
  | 0, _, found, nearest => .ok (found, nearest)
  | n + 1, i, found, nearest =>
    match read sym_tables i with
    | .error e => .error e
    | .ok ti =>
      if ti.base_address > addr then
        symfind_scan sym_tables addr n (i + 1) found nearest
      else
        let nearest1 := if !found then i else nearest
        match read sym_tables nearest1 with
        | .error e => .error e
        | .ok tn =>
          let nearest2 := if ti.base_address > tn.base_address then i else nearest1
          symfind_scan sym_tables addr n (i + 1) true nearest2

/-- The `while` loop of `symfind` (lines 88-103); the result is the final
value of `left`. -/
def symfind_loop (syms : List asymbol) (addr : Nat) :
    Nat → Nat → Nat → Except fault Nat
  | 0, left, right =>
    if (left + 1) % WORD < right then .error .out_of_fuel else .ok left
  | fuel + 1, left, right =>
    if (left + 1) % WORD < right then
      let middle := ((right + left) % WORD) / 2
      match read syms middle with
      | .error e => .error e
      | .ok sym =>
        if bfd_asymbol_value sym > addr then
          symfind_loop syms addr fuel left middle
        else if bfd_asymbol_value sym < addr then
          symfind_loop syms addr fuel middle right
        else
          .ok middle
    else .ok left

/-- The part of `symfind` after the table is chosen (lines 77-105), on the
chosen table `t`. The result is the returned pointer and the value stored
through `base_offset`. -/
def symfind_table (t : sym_table) (addr : Nat) : Except fault (Option asymbol × Nat) :=
  let base_offset := t.base_offset
  let addr := sub64 addr t.base_offset
  let symcount := t.symcount
  let syms := t.syms
  let right := to_ulong symcount
  if symcount < 1 then .ok (none, base_offset)
  else
    match read syms 0 with
    | .error e => .error e
    | .ok s0 =>
      if addr < bfd_asymbol_value s0 then .ok (none, base_offset)
      else
        match read syms (symcount - 1).toNat with
        | .error e => .error e
        | .ok sl =>
          if addr > bfd_asymbol_value sl then .ok (none, base_offset)
          else
            match symfind_loop syms addr right 0 right with
            | .error e => .error e
            | .ok left =>
              match read syms left with
              | .error e => .error e
              | .ok s => .ok (some s, base_offset)

/-- The function `symfind` (lines 50-106). The argument `base_offset` is what
the caller's variable holds before the call; the result is the returned
pointer and what that variable holds afterwards. -/
def symfind (reg : registry) (addr : Nat) (base_offset : Nat) :
    Except fault (Option asymbol × Nat) :=
  match symfind_scan reg.sym_tables addr reg.nr_sym_tables 0 false 0 with
  | .error e => .error e
  | .ok (found, nearest) =>
    if !found then .ok (none, base_offset)
    else
      match read reg.sym_tables nearest with
      | .error e => .error e
      | .ok t => symfind_table t addr

/-! ## `__print_address` -/

/-- Lines 186-191 of `__print_address`: the symbol found for `vma` and the
offset computed for it, or `none` when `symfind` returns `NULL`. The argument
`base_offset` is the content of the uninitialised local of that name. -/
def print_address_lookup (reg : registry) (vma : Nat) (base_offset : Nat) :
    Except fault (Option (asymbol × Nat)) :=
  match symfind reg vma base_offset with
  | .error e => .error e
  | .ok (none, _) => .ok none
  | .ok (some sym, base_offset) =>
    .ok (some (sym, sub64 (sub64 vma base_offset) (bfd_asymbol_value sym)))

/-- The conversion `%lx` of `fprintf`: lowercase hexadecimal digits without
prefix and without leading zeros. -/
def hex (n : Nat) : String := String.mk (Nat.toDigits 16 n)

/-- The function `__print_address` (lines 184-197): the text it appends to
`ascii_fout`. -/
def __print_address (reg : registry) (vma : Nat) (base_offset : Nat) : Except fault String :=
  match print_address_lookup reg vma base_offset with
  | .error e => .error e
  | .ok (some (sym, offset)) =>
    .ok (hex vma ++ " <" ++ bfd_asymbol_name sym ++ "+0x" ++ hex offset ++ "> ")
  | .ok none => .ok (hex vma ++ " ")

/-! ## Vocabulary of the statements -/

/-- The entry `sym_tables[j]` of a registry. -/
def table_at (reg : registry) (j : Nat) : sym_table := reg.sym_tables.getD j zero_table

/-- Table `k` is the table chosen for `addr`: it is registered, its
`base_address` does not exceed `addr`, no registered table at or below `addr`
has a larger `base_address`, and none before it has the same one. -/
def selects (reg : registry) (addr : Nat) (k : Nat) : Prop :=
  k < reg.nr_sym_tables ∧ (table_at reg k).base_address ≤ addr ∧
  ∀ j, j < reg.nr_sym_tables → (table_at reg j).base_address ≤ addr →
    (table_at reg j).base_address ≤ (table_at reg k).base_address ∧
    (j < k → (table_at reg j).base_address < (table_at reg k).base_address)

/-- The registered tables are entries of the array. -/
def registry.wf (reg : registry) : Prop := reg.nr_sym_tables ≤ reg.sym_tables.length

/-- A table whose `symcount` is the number of entries of `syms`, as a `long`. -/
def sym_table.wf (t : sym_table) : Prop :=
  t.symcount = (t.syms.length : Int) ∧ t.symcount < 2 ^ 63

/-- The table is sorted ascending by symbol value. -/
def sym_table.sorted (t : sym_table) : Prop :=
  List.Pairwise (fun a b => bfd_asymbol_value a ≤ bfd_asymbol_value b) t.syms

/-- The key looked up in table `t` for the address `addr`
(`addr -= base_offset`, line 78). -/
def lookup_key (t : sym_table) (addr : Nat) : Nat := sub64 addr t.base_offset

/-- Value of the symbol at index `i` of a table. -/
def value_at (syms : List asymbol) (i : Nat) : Nat :=
  bfd_asymbol_value (syms.getD i ⟨"", 0⟩)

/-- State of the scan after the tables below `i`. -/
def scan_inv (ts : List sym_table) (addr i : Nat) (found : Bool) (nearest : Nat) : Prop :=
  (found = false → ∀ j, j < i → ¬ (ts.getD j zero_table).base_address ≤ addr) ∧
  (found = true → nearest < i ∧ (ts.getD nearest zero_table).base_address ≤ addr ∧
    ∀ j, j < i → (ts.getD j zero_table).base_address ≤ addr →
      (ts.getD j zero_table).base_address ≤ (ts.getD nearest zero_table).base_address ∧
      (j < nearest →
        (ts.getD j zero_table).base_address < (ts.getD nearest zero_table).base_address))

instance (reg : registry) (addr k : Nat) : Decidable (selects reg addr k) := by
  unfold selects; infer_instance

instance (reg : registry) : Decidable reg.wf := by
  unfold registry.wf; infer_instance

instance (t : sym_table) : Decidable t.wf := by
  unfold sym_table.wf; infer_instance

instance (t : sym_table) : Decidable t.sorted := by
  unfold sym_table.sorted; infer_instance

/-! ## Example registries -/

/-- A registry of two tables: an executable with absolute symbol values and a
shared object with relative ones. -/
def reg_two : registry :=
  ⟨[⟨2, [⟨"foo", 0x10050⟩, ⟨"bar", 0x10100⟩], 0x10000, 0⟩,
    ⟨3, [⟨"a", 0x20⟩, ⟨"b", 0x20⟩, ⟨"c", 0x90⟩], 0x7f0000, 0x7f0000⟩], 2⟩

/-! ## `symcmp` and `build_symtab` -/

/-- The comparator `symcmp` (lines 27-33): the `int` value of the comparison
`bfd_asymbol_value(*s1) > bfd_asymbol_value(*s2)`. -/
def symcmp (s1 s2 : asymbol) : Int :=
  if bfd_asymbol_value s1 > bfd_asymbol_value s2 then 1 else 0

/-- An object file opened through BFD, as far as this file looks at it:
the result of `bfd_check_format (abfd, bfd_object)`, the flag `HAS_SYMS` of
`bfd_get_file_flags`, and the static and the dynamic symbols, `none` when
reading them fails. -/
structure bfd where
  is_object : Bool
  has_syms : Bool
  static_syms : Option (List asymbol)
  dynamic_syms : Option (List asymbol)
  deriving DecidableEq, Repr

/-- The call `bfd_read_minisymbols (abfd, dynamic, syms, &size)`: the count it
returns (`-1` on failure) and the content of `*syms` afterwards, which is
only replaced when symbols were read. -/
def bfd_read_minisymbols (abfd : bfd) (dynamic : Bool) (syms : List asymbol) :
    Int × List asymbol :=
  match (if dynamic then abfd.dynamic_syms else abfd.static_syms) with
  | none => (-1, syms)
  | some [] => (0, syms)
  | some (s :: l) => (((s :: l).length : Int), s :: l)

/-- The C library and the object files on disk: `bfd_openr file target` is the
object BFD opens for a file name (`none` for `NULL`), `qsort compar base` is
the array `qsort` leaves for the array `base` and the comparator `compar`. -/
structure libs where
  bfd_openr : String → String → Option bfd
  qsort : (asymbol → asymbol → Int) → List asymbol → List asymbol

/-- The call `qsort (base, nmemb, sizeof (asymbol *), compar)`: the first
`nmemb` entries of the array are sorted; an array with fewer than `nmemb`
entries is accessed past its end. -/
def qsort_call (qsort : (asymbol → asymbol → Int) → List asymbol → List asymbol)
    (base : List asymbol) (nmemb : Nat) (compar : asymbol → asymbol → Int) :
    Except fault (List asymbol) :=
  if nmemb ≤ base.length then .ok (qsort compar (base.take nmemb) ++ base.drop nmemb)
  else .error .out_of_bounds

/-- The function `build_symtab` (lines 35-48) on the entry fields `*syms` and
`*symcount`; the result is their content afterwards. -/
def build_symtab (qsort : (asymbol → asymbol → Int) → List asymbol → List asymbol)
    (abfd : bfd) (syms : List asymbol) (symcount : Int) : Except fault (List asymbol × Int) :=
  if !abfd.has_syms then .ok (syms, symcount)
  else
    let (symcount, syms) := bfd_read_minisymbols abfd false syms
    let (symcount, syms) :=
      if symcount == 0 then bfd_read_minisymbols abfd true syms else (symcount, syms)
    match qsort_call qsort syms (to_ulong symcount) symcmp with
    | .error e => .error e
    | .ok sorted => .ok (sorted, symcount)

/-! ## `syminit` -/

/-- The function `syminit` (lines 108-132) on the globals. -/
def syminit (env : libs) (file : String) (base_address base_offset : Nat) (target : String)
    (reg : registry) : Except fault registry :=
  match env.bfd_openr file target with
  | none => .ok reg
  | some abfd =>
    if !abfd.is_object then .ok reg
    else
      match read reg.sym_tables reg.nr_sym_tables with
      | .error e => .error e
      | .ok t =>
        match build_symtab env.qsort abfd t.syms t.symcount with
        | .error e => .error e
        | .ok (syms, symcount) =>
          match write reg.sym_tables reg.nr_sym_tables
              ⟨symcount, syms, base_address, base_offset⟩ with
          | .error e => .error e
          | .ok ts => .ok ⟨ts, (reg.nr_sym_tables + 1) % WORD⟩

/-! ## `initialise_mem_map` -/

/-- The block-scope variables of the loop of `initialise_mem_map` that
`sscanf` writes. The source does not initialise them; the embedding hands
their storage from one iteration to the next and takes its content before the
first iteration as a parameter. A character array is given by its leading
bytes, and bytes past the end of the list read as NUL. -/
structure locals where
  start : Nat
  end_ : Nat
  perm : List Char
  library : List Char
  deriving DecidableEq, Repr

/-- What `sscanf (buf, "%lx-%lx %s %*s %*s %*s %s", &start, &end, perm,
library)` converts from one line that `fgets` read: the values of a prefix of
its four receiving arguments. `sscanf` stops at the first directive that does
not match, and the arguments after it are not written. -/
inductive scanned where
  | nothing
  | upto_start (start : Nat)
  | upto_end (start end_ : Nat)
  | upto_perm (start end_ : Nat) (perm : String)
  | all (start end_ : Nat) (perm library : String)
  deriving DecidableEq, Repr

/-- The NUL character. -/
def NUL : Char := Char.ofNat 0

/-- A `%s` conversion stores the characters of the field and a terminating
NUL at the start of the array; the rest of the array keeps its content. -/
def store_str (field : String) (buf : List Char) : List Char :=
  field.data ++ NUL :: buf.drop (field.length + 1)

/-- The C string that starts a character array. -/
def c_str (buf : List Char) : String := String.mk (buf.takeWhile (fun c => c != NUL))

/-- The `sscanf` call of line 162 on the variables of the loop body. -/
def sscanf_line (line : scanned) (v : locals) : locals :=
  match line with
  | .nothing => v
  | .upto_start s => { v with start := s }
  | .upto_end s e => { v with start := s, end_ := e }
  | .upto_perm s e p => { v with start := s, end_ := e, perm := store_str p v.perm }
  | .all s e p l =>
    { start := s, end_ := e, perm := store_str p v.perm, library := store_str l v.library }

/-- One call `syminit (file, base_address, base_offset, target)`, as recorded
in the log of calls. -/
structure syminit_call where
  file : String
  base_address : Nat
  base_offset : Nat
  deriving DecidableEq, Repr

/-- State of the loop of `initialise_mem_map`: the flag `first`, the variables
of the loop body, the globals, and the log of the calls of `syminit` made so
far (the log is not part of the program). -/
structure map_state where
  first : Bool
  vars : locals
  reg : registry
  calls : List syminit_call
  deriving DecidableEq, Repr

/-- The target name `initialise_mem_map` passes to `syminit`. -/
def TARGET : String := "elf64-powerpc"

/-- One iteration of the loop of `initialise_mem_map` (lines 159-178) for a
line that `fgets` returned. -/
def mem_map_line (env : libs) (st : map_state) (line : scanned) : Except fault map_state :=
  let vars := sscanf_line line st.vars
  if vars.perm.getD 2 NUL != 'x' then .ok { st with vars := vars }
  else
    let offset := if st.first == true then 0 else vars.start
    match syminit env (c_str vars.library) vars.start offset TARGET st.reg with
    | .error e => .error e
    | .ok reg =>
      .ok ⟨false, vars, reg, st.calls ++ [⟨c_str vars.library, vars.start, offset⟩]⟩

/-- The loop of `initialise_mem_map` (lines 152-179) over the lines that
`fgets` returns before it returns `NULL`. -/
def mem_map_loop (env : libs) : List scanned → map_state → Except fault map_state
  | [], st => .ok st
  | line :: rest, st =>
    match mem_map_line env st line with
    | .error e => .error e
    | .ok st1 => mem_map_loop env rest st1

/-- The function `initialise_mem_map` (lines 136-182) for a map file that
opens, given by the lines `fgets` returns: the state when the loop ends. -/
def initialise_mem_map (env : libs) (lines : List scanned) (vars0 : locals) (reg : registry) :
    Except fault map_state :=
  mem_map_loop env lines ⟨true, vars0, reg, []⟩

/-! ## Models of `qsort` -/

/-- A `qsort` that inserts each element before the first one the comparator
does not rank above it (`compar (a, b) <= 0`). -/
def qsort_le (compar : asymbol → asymbol → Int) (base : List asymbol) : List asymbol :=
  base.insertionSort (fun a b => compar a b ≤ 0)

/-- The comparator contract of `qsort` in the C standard: the sign of
`compar (a, b)` tells whether `a` is less than, equal to or greater than `b`,
consistently: a total ordering. -/
def three_way (compar : asymbol → asymbol → Int) : Prop :=
  (∀ a b, compar a b < 0 ↔ 0 < compar b a) ∧
  (∀ a b c, compar a b ≤ 0 → compar b c ≤ 0 → compar a c ≤ 0)

/-- A comparator that keeps the contract: negative, zero or positive as the
value of the first symbol is below, equal to or above the value of the
second. -/
def value_compare (s1 s2 : asymbol) : Int :=
  if bfd_asymbol_value s1 < bfd_asymbol_value s2 then -1
  else if bfd_asymbol_value s1 > bfd_asymbol_value s2 then 1 else 0

/-- The contract of `qsort` in the C standard: for a comparator that keeps
its own contract the result is a permutation of the array in ascending
order. -/
def qsort_conforms (qsort : (asymbol → asymbol → Int) → List asymbol → List asymbol) : Prop :=
  ∀ compar, three_way compar → ∀ base,
    (qsort compar base).Perm base ∧ (qsort compar base).Pairwise (fun a b => compar a b ≤ 0)

/-- The `qsort` of the library sorts symbol arrays with `symcmp`. -/
def qsort_sorts (qsort : (asymbol → asymbol → Int) → List asymbol → List asymbol) : Prop :=
  ∀ base, (qsort symcmp base).Perm base ∧
    (qsort symcmp base).Pairwise (fun a b => bfd_asymbol_value a ≤ bfd_asymbol_value b)

/-! ## Vocabulary for the construction of the registry -/

/-- The call of `syminit` on this file registers a table: the file opens and
is a recognised object. -/
def opens (env : libs) (c : syminit_call) : Bool :=
  match env.bfd_openr c.file TARGET with
  | some abfd => abfd.is_object
  | none => false

/-- Reading the symbols of the object does not fail: when the object has the
flag `HAS_SYMS`, its static symbols are read, and its dynamic symbols are
read when there is no static symbol. -/
def bfd.readable (abfd : bfd) : Prop :=
  abfd.has_syms = true →
    abfd.static_syms ≠ none ∧ (abfd.static_syms = some [] → abfd.dynamic_syms ≠ none)

/-- Reading the symbols does not fail for any object of the file system. -/
def libs.readable (env : libs) : Prop :=
  ∀ file abfd, env.bfd_openr file TARGET = some abfd → abfd.readable

/-- The first call of the log has `base_offset` 0 and every later call has
`base_offset` equal to its `base_address`. -/
def first_rule (calls : List syminit_call) : Prop :=
  ∀ c rest, calls = c :: rest →
    c.base_offset = 0 ∧ ∀ d ∈ rest, d.base_offset = d.base_address

/-- The registered tables of a registry. -/
def registered (reg : registry) : List sym_table := reg.sym_tables.take reg.nr_sym_tables

/-- What the loop of `initialise_mem_map` keeps true: `first` is set until the
first call, the calls follow the base-offset rule, and the registered tables
carry, in order, the addresses and offsets of the calls that opened their
file. -/
def map_inv (env : libs) (st : map_state) : Prop :=
  (st.first = true ↔ st.calls = []) ∧
  first_rule st.calls ∧
  st.reg.nr_sym_tables ≤ st.reg.sym_tables.length ∧
  (registered st.reg).map (fun t => (t.base_address, t.base_offset)) =
    (st.calls.filter (opens env)).map (fun c => (c.base_address, c.base_offset))

/-! ## Example objects and map listings -/

/-- The symbol `foo` at `0x10050`. -/
def sym_foo : asymbol := ⟨"foo", 0x10050⟩

/-- The symbol `bar` at `0x10100`. -/
def sym_bar : asymbol := ⟨"bar", 0x10100⟩

/-- The symbol `baz` with the relative value `0x20`. -/
def sym_baz : asymbol := ⟨"baz", 0x20⟩

/-- An executable whose symbol table lists `bar` before `foo`. -/
def obj_prog : bfd := ⟨true, true, some [sym_bar, sym_foo], none⟩

/-- A shared object with the single symbol `baz`. -/
def obj_baz : bfd := ⟨true, true, some [sym_baz], none⟩

/-- An object without symbols. -/
def obj_stripped : bfd := ⟨true, false, none, none⟩

/-- A file system with the executable `/bin/prog` and the shared objects
`/lib/baz.so` and `/lib/stripped.so`, and a C library whose `qsort` is
`qsort_le`. -/
def env_two : libs :=
  ⟨fun file _ =>
      if file = "/bin/prog" then some obj_prog
      else if file = "/lib/baz.so" then some obj_baz
      else if file = "/lib/stripped.so" then some obj_stripped
      else none,
    qsort_le⟩

/-- Variables of the loop body that hold zeros. -/
def vars_zero : locals := ⟨0, 0, [], []⟩

/-- A map listing with the executable at `0x10000` and the shared object at
`0x7f0000`. -/
def lines_two : List scanned :=
  [.all 0x10000 0x20000 "r-xp" "/bin/prog", .all 0x7f0000 0x7f1000 "r-xp" "/lib/baz.so"]

/-- A map listing of `n` executable regions of `/lib/stripped.so`, one page
apart. -/
def lines_many (n : Nat) : List scanned :=
  (List.range n).map
    (fun i => .all (0x10000 * (i + 1)) (0x10000 * (i + 1) + 0x1000) "r-xp" "/lib/stripped.so")

/-- A map listing with the executable at `0x10000` followed by a line from
which `sscanf` converts nothing. -/
def lines_blank : List scanned :=
  [.all 0x10000 0x20000 "r-xp" "/bin/prog", .nothing]

/-- A map listing with the executable at `0x10000` followed by an anonymous
executable region, `7f0000-7f1000 r-xp 00000000 00:00 0`, a line without a
path name: `sscanf` converts the two addresses and the permissions only. -/
def lines_anon : List scanned :=
  [.all 0x10000 0x20000 "r-xp" "/bin/prog", .upto_perm 0x7f0000 0x7f1000 "r-xp"]

/-- The registry of scenario 1: the table of the executable at `0x10000` in
entry 0. -/
def reg_one : registry :=
  ⟨initial_registry.sym_tables.set 0 ⟨2, [sym_foo, sym_bar], 0x10000, 0⟩, 1⟩

/-- The registry of scenario 2: the registry of scenario 1 with the table of
the shared object at `0x7f0000` in entry 1. -/
def reg_both : registry :=
  ⟨reg_one.sym_tables.set 1 ⟨1, [sym_baz], 0x7f0000, 0x7f0000⟩, 2⟩

/-! ## Vocabulary for well-formed map listings -/

/-- A line of the map listing from which `sscanf` converts all four fields,
with a permission field of at least two characters (a shorter field leaves
the third byte of `perm` unwritten) and a path name without NUL. -/
def well_formed : scanned → Bool
  | .all _ _ p l => decide (2 ≤ p.length) && l.data.all (fun c => c != NUL)
  | _ => false

/-- The permission field of the line has `x` as its third character. -/
def executable : scanned → Bool
  | .all _ _ p _ => p.data[2]? == some 'x'
  | _ => false

/-- The path name and the start address of a line. -/
def region_of : scanned → String × Nat
  | .all s _ _ l => (l, s)
  | _ => ("", 0)
/-- A map listing of well-formed lines, two of them executable. -/
def lines_mixed : List scanned :=
  [.all 0x10000 0x20000 "r-xp" "/bin/prog", .all 0x20000 0x21000 "rw-p" "/bin/prog",
    .all 0x7f0000 0x7f1000 "r-xp" "/lib/baz.so", .all 0x7ff000 0x7ff100 "rw-p" "[stack]"]

/-- A file system whose only file, `/etc/motd`, is not an object file. -/
def env_text : libs :=
  ⟨fun file _ => if file = "/etc/motd" then some ⟨false, true, some [sym_foo], none⟩ else none,
    qsort_le⟩

/-- A registry in which the shared object at `0x10080` lies inside the symbol
range of the executable at `0x10000`. -/
def reg_overlap : registry :=
  ⟨[⟨2, [sym_foo, sym_bar], 0x10000, 0⟩, ⟨1, [sym_baz], 0x10080, 0x10080⟩], 2⟩

/-! ## Vocabulary for the printed text -/

/-- The characters `0` to `9` and `a` to `f`. -/
def lower_hex_digit (c : Char) : Bool :=
  ('0'.toNat ≤ c.toNat && c.toNat ≤ '9'.toNat) || ('a'.toNat ≤ c.toNat && c.toNat ≤ 'f'.toNat)

/-- The value of a hexadecimal digit. -/
def hex_digit_value (c : Char) : Nat :=
  if c.toNat ≤ '9'.toNat then c.toNat - '0'.toNat else c.toNat - 'a'.toNat + 10

/-- The number a sequence of hexadecimal digits denotes, most significant
digit first. -/
def hex_value (cs : List Char) : Nat :=
  cs.foldl (fun acc c => acc * 16 + hex_digit_value c) 0

/-! ## Vocabulary for the table selection -/

/-- Lines 60-75 of `symfind`: the entry the scan of the tables settles on,
`none` when `found` stays false. -/
def symfind_nearest (reg : registry) (addr : Nat) : Except fault (Option sym_table) :=
  match symfind_scan reg.sym_tables addr reg.nr_sym_tables 0 false 0 with
  | .error e => .error e
  | .ok (found, nearest) =>
    if !found then .ok none
    else
      match read reg.sym_tables nearest with
      | .error e => .error e
      | .ok t => .ok (some t)

/-- The registry with the `base_address` of entry `j` replaced by `b`. -/
def set_base (reg : registry) (j b : Nat) : registry :=
  ⟨reg.sym_tables.set j { table_at reg j with base_address := b }, reg.nr_sym_tables⟩

/-- The registry with the table `t` added as `syminit` adds one: in entry
`nr_sym_tables`, which then grows by one. -/
def add_table (reg : registry) (t : sym_table) : registry :=
  ⟨reg.sym_tables.set reg.nr_sym_tables t, reg.nr_sym_tables + 1⟩
/-! ## Vocabulary for the binary search -/

/-- What one evaluation of the condition and the body of the loop of `symfind`
leads to: another iteration with new `left` and `right`, or the end of the
loop with the final `left`. -/
inductive loop_next where
  | again (left right : Nat)
  | exit (left : Nat)
  deriving DecidableEq, Repr

/-- One evaluation of the condition and the body of the loop of `symfind`
(lines 88-103). -/
def symfind_iter (syms : List asymbol) (addr : Nat) (left right : Nat) :
    Except fault loop_next :=
  if (left + 1) % WORD < right then
    let middle := ((right + left) % WORD) / 2
    match read syms middle with
    | .error e => .error e
    | .ok sym =>
      if bfd_asymbol_value sym > addr then .ok (.again left middle)
      else if bfd_asymbol_value sym < addr then .ok (.again middle right)
      else .ok (.exit middle)
  else .ok (.exit left)

/-- A map listing with the executable at `0x10000` and an object without
symbols at `0x10080`, inside the symbol range of the executable. -/
def lines_stripped : List scanned :=
  [.all 0x10000 0x20000 "r-xp" "/bin/prog", .all 0x10080 0x10090 "r-xp" "/lib/stripped.so"]

/-- The entries from `nr_sym_tables` on are as static storage initialises
them. -/
def fresh (reg : registry) : Prop :=
  ∀ j, reg.nr_sym_tables ≤ j → table_at reg j = zero_table

/-! ## Vocabulary for the base-offset rule and the sorted tables -/

/-- The calls of `syminit` the base-offset rule prescribes for a sequence of
regions, each given by its path name and start address: `base_offset` 0 for
the first region and the start address for every later one; `base_address` is
the start address for all. -/
def rule_calls : List (String × Nat) → List syminit_call
  | [] => []
  | r :: rest => ⟨r.1, r.2, 0⟩ :: rest.map (fun q => ⟨q.1, q.2, q.2⟩)

/-- The path name of the line opens as a recognised object, so that `syminit`
registers a table for the region. -/
def region_opens (env : libs) (line : scanned) : Bool :=
  opens env ⟨(region_of line).1, (region_of line).2, 0⟩

/-- The symbols `build_symtab` extracts from an object: the static symbols,
or the dynamic symbols when the object has no static symbol. -/
def extracted (abfd : bfd) : List asymbol :=
  match abfd.static_syms with
  | some (s :: l) => s :: l
  | some [] => abfd.dynamic_syms.getD []
  | none => []

/-- The number of symbols of every object of the file system fits a `long`. -/
def libs.bounded (env : libs) : Prop :=
  ∀ file abfd, env.bfd_openr file TARGET = some abfd → (extracted abfd).length < 2 ^ 63

/-- A `qsort` that arranges the array by the test `compar (a, b) <= 0`, the
test a merge sort makes: when this test is total and transitive, the result is
a permutation of the array in which the test holds between every element and
every later one. For a comparator that keeps the contract of the C standard
this is what the standard promises. -/
def qsort_orders (qsort : (asymbol → asymbol → Int) → List asymbol → List asymbol) : Prop :=
  ∀ compar, (∀ a b, compar a b ≤ 0 ∨ compar b a ≤ 0) →
    (∀ a b c, compar a b ≤ 0 → compar b c ≤ 0 → compar a c ≤ 0) →
    ∀ base, (qsort compar base).Perm base ∧
      (qsort compar base).Pairwise (fun a b => compar a b ≤ 0)

/-! ## Lemmas on the table scan -/

theorem read_of_lt {α : Type} (xs : List α) (i : Nat) (d : α) (h : i < xs.length) :
    read xs i = .ok (xs.getD i d) := by
  simp [read, List.getElem?_eq_getElem h]

theorem symfind_scan_spec (ts : List sym_table) (addr : Nat) :
    ∀ (n i : Nat) (found : Bool) (nearest : Nat), i + n ≤ ts.length →
      scan_inv ts addr i found nearest →
      ∃ found1 nearest1, symfind_scan ts addr n i found nearest = .ok (found1, nearest1) ∧
        scan_inv ts addr (i + n) found1 nearest1 := by
  intro n
  induction n with
  | zero =>
    intro i found nearest _ hinv
    exact ⟨found, nearest, rfl, by simpa using hinv⟩
  | succ n ih =>
    intro i found nearest hlen hinv
    have hi : i < ts.length := by omega
    rw [symfind_scan, read_of_lt ts i zero_table hi]
    simp only []
    by_cases hgt : (ts.getD i zero_table).base_address > addr
    · rw [if_pos hgt]
      have hinv1 : scan_inv ts addr (i + 1) found nearest := by
        refine ⟨fun hf j hj => ?_, fun hf => ?_⟩
        · rcases Nat.lt_succ_iff_lt_or_eq.mp hj with h | h
          · exact hinv.1 hf j h
          · subst h; omega
        · obtain ⟨h1, h2, h3⟩ := hinv.2 hf
          refine ⟨by omega, h2, fun j hj hle => ?_⟩
          rcases Nat.lt_succ_iff_lt_or_eq.mp hj with h | h
          · exact h3 j h hle
          · subst h; omega
      obtain ⟨f1, n1, he, hi1⟩ := ih (i + 1) found nearest (by omega) hinv1
      exact ⟨f1, n1, he, by rwa [show i + (n + 1) = i + 1 + n by omega]⟩
    · rw [if_neg hgt]
      have hle : (ts.getD i zero_table).base_address ≤ addr := by omega
      cases found with
      | false =>
        have h0 := hinv.1 rfl
        simp only [Bool.not_false, if_true]
        rw [read_of_lt ts i zero_table hi]
        simp only [gt_iff_lt, lt_self_iff_false, if_false]
        have hinv1 : scan_inv ts addr (i + 1) true i := by
          refine ⟨fun hf => by simp at hf, fun _ => ⟨by omega, hle, fun j hj hjle => ?_⟩⟩
          rcases Nat.lt_succ_iff_lt_or_eq.mp hj with h | h
          · exact absurd hjle (h0 j h)
          · subst h; exact ⟨le_refl _, fun h => absurd h (lt_irrefl _)⟩
        obtain ⟨f1, n1, he, hi1⟩ := ih (i + 1) true i (by omega) hinv1
        exact ⟨f1, n1, he, by rwa [show i + (n + 1) = i + 1 + n by omega]⟩
      | true =>
        obtain ⟨h1, h2, h3⟩ := hinv.2 rfl
        simp only [Bool.not_true, Bool.false_eq_true, if_false]
        rw [read_of_lt ts nearest zero_table (by omega)]
        simp only []
        by_cases hb : (ts.getD i zero_table).base_address >
            (ts.getD nearest zero_table).base_address
        · rw [if_pos hb]
          have hinv1 : scan_inv ts addr (i + 1) true i := by
            refine ⟨fun hf => by simp at hf, fun _ => ⟨by omega, hle, fun j hj hjle => ?_⟩⟩
            rcases Nat.lt_succ_iff_lt_or_eq.mp hj with h | h
            · have := h3 j h hjle
              exact ⟨by omega, fun _ => by omega⟩
            · subst h; exact ⟨le_refl _, fun h => absurd h (lt_irrefl _)⟩
          obtain ⟨f1, n1, he, hi1⟩ := ih (i + 1) true i (by omega) hinv1
          exact ⟨f1, n1, he, by rwa [show i + (n + 1) = i + 1 + n by omega]⟩
        · rw [if_neg hb]
          have hinv1 : scan_inv ts addr (i + 1) true nearest := by
            refine ⟨fun hf => by simp at hf, fun _ => ⟨by omega, h2, fun j hj hjle => ?_⟩⟩
            rcases Nat.lt_succ_iff_lt_or_eq.mp hj with h | h
            · exact h3 j h hjle
            · subst h; exact ⟨by omega, fun h => by omega⟩
          obtain ⟨f1, n1, he, hi1⟩ := ih (i + 1) true nearest (by omega) hinv1
          exact ⟨f1, n1, he, by rwa [show i + (n + 1) = i + 1 + n by omega]⟩

theorem selects_unique (reg : registry) (addr k1 k2 : Nat)
    (h1 : selects reg addr k1) (h2 : selects reg addr k2) : k1 = k2 := by
  obtain ⟨a1, b1, c1⟩ := h1
  obtain ⟨a2, b2, c2⟩ := h2
  have x := c1 k2 a2 b2
  have y := c2 k1 a1 b1
  rcases Nat.lt_trichotomy k1 k2 with h | h | h
  · have := y.2 h; omega
  · exact h
  · have := x.2 h; omega

/-- Outcome of the table scan of `symfind`: without a table at or below `addr`
the function returns `NULL` and leaves the caller's variable alone; otherwise
it continues on the table chosen for `addr`. -/
theorem symfind_cases (reg : registry) (addr bo0 : Nat) (hwf : reg.wf) :
    ((∀ j, j < reg.nr_sym_tables → ¬ (table_at reg j).base_address ≤ addr) ∧
      symfind reg addr bo0 = .ok (none, bo0)) ∨
    (∃ k, selects reg addr k ∧
      symfind reg addr bo0 = symfind_table (table_at reg k) addr) := by
  have hinv0 : scan_inv reg.sym_tables addr 0 false 0 :=
    ⟨fun _ j hj => absurd hj (Nat.not_lt_zero j), fun hf => by simp at hf⟩
  obtain ⟨f1, n1, he, hinv⟩ :=
    symfind_scan_spec reg.sym_tables addr reg.nr_sym_tables 0 false 0
      (by simpa using hwf) hinv0
  rw [Nat.zero_add] at hinv
  unfold symfind
  rw [he]
  cases f1 with
  | false =>
    left
    exact ⟨fun j hj => hinv.1 rfl j hj, by simp⟩
  | true =>
    right
    obtain ⟨h1, h2, h3⟩ := hinv.2 rfl
    refine ⟨n1, ⟨h1, h2, h3⟩, ?_⟩
    have hlt : n1 < reg.sym_tables.length := lt_of_lt_of_le h1 hwf
    simp only [Bool.not_true, Bool.false_eq_true, if_false]
    rw [read_of_lt reg.sym_tables n1 zero_table hlt]
    rfl

theorem symfind_of_selects (reg : registry) (addr bo0 k : Nat) (hwf : reg.wf)
    (hk : selects reg addr k) :
    symfind reg addr bo0 = symfind_table (table_at reg k) addr := by
  rcases symfind_cases reg addr bo0 hwf with ⟨hno, _⟩ | ⟨k1, hk1, he⟩
  · exact absurd hk.2.1 (hno k hk.1)
  · rw [he, selects_unique reg addr k1 k hk1 hk]

/-! ## Lemmas on the binary search -/

theorem sub64_lt (a b : Nat) : sub64 a b < WORD :=
  Nat.mod_lt _ (by decide)

theorem sub64_of_le (a b : Nat) (hb : b ≤ a) (ha : a < WORD) : sub64 a b = a - b := by
  unfold sub64
  have hb1 : b % WORD = b := Nat.mod_eq_of_lt (by omega)
  rw [hb1]
  have : a + (WORD - b) = (a - b) + WORD := by omega
  rw [this, Nat.add_mod_right]
  exact Nat.mod_eq_of_lt (by omega)

/-- The loop of `symfind` on `left < right <= length`: with fuel for
`right - left - 1` iterations it ends, reads inside the table only, and keeps
`value[left] <= addr` and `addr < value[right]` (for `right` inside the
table); it leaves through the `break` or with `left + 1 = right`. Sortedness
is not used. -/
theorem symfind_loop_spec (syms : List asymbol) (addr : Nat) (hlen : syms.length < 2 ^ 63) :
    ∀ (fuel left right : Nat), left < right → right ≤ syms.length →
      right - left ≤ fuel + 1 →
      value_at syms left ≤ addr →
      (right < syms.length → addr < value_at syms right) →
      ∃ l, symfind_loop syms addr fuel left right = .ok l ∧ left ≤ l ∧ l < right ∧
        value_at syms l ≤ addr ∧
        (value_at syms l = addr ∨ (l + 1 < syms.length → addr < value_at syms (l + 1))) := by
  intro fuel
  induction fuel with
  | zero =>
    intro left right hlr hr hf hl hrv
    have hlr1 : right = left + 1 := by omega
    have hw : (left + 1) % WORD = left + 1 :=
      Nat.mod_eq_of_lt (by have : WORD = 2 ^ 64 := rfl; omega)
    refine ⟨left, ?_, le_refl _, hlr, hl, Or.inr ?_⟩
    · rw [symfind_loop, hw, if_neg (by omega)]
    · intro h; rw [← hlr1]; exact hrv (by omega)
  | succ fuel ih =>
    intro left right hlr hr hf hl hrv
    have hw : (left + 1) % WORD = left + 1 :=
      Nat.mod_eq_of_lt (by have : WORD = 2 ^ 64 := rfl; omega)
    rw [symfind_loop, hw]
    by_cases hc : left + 1 < right
    · rw [if_pos hc]
      have hw2 : (right + left) % WORD = right + left :=
        Nat.mod_eq_of_lt (by have : WORD = 2 ^ 64 := rfl; omega)
      simp only [hw2]
      have hm1 : left < (right + left) / 2 := by omega
      have hm2 : (right + left) / 2 < right := by omega
      rw [read_of_lt syms ((right + left) / 2) ⟨"", 0⟩ (by omega)]
      simp only []
      by_cases h1 : bfd_asymbol_value (syms.getD ((right + left) / 2) ⟨"", 0⟩) > addr
      · rw [if_pos h1]
        obtain ⟨l, he, a, b, c, d⟩ :=
          ih left ((right + left) / 2) hm1 (by omega) (by omega) hl (fun _ => h1)
        exact ⟨l, he, a, by omega, c, d⟩
      · rw [if_neg h1]
        by_cases h2 : bfd_asymbol_value (syms.getD ((right + left) / 2) ⟨"", 0⟩) < addr
        · rw [if_pos h2]
          obtain ⟨l, he, a, b, c, d⟩ :=
            ih ((right + left) / 2) right hm2 hr (by omega) (le_of_lt h2) hrv
          exact ⟨l, he, by omega, b, c, d⟩
        · rw [if_neg h2]
          have heq : value_at syms ((right + left) / 2) = addr := by
            unfold value_at; omega
          exact ⟨(right + left) / 2, rfl, by omega, hm2, le_of_eq heq, Or.inl heq⟩
    · rw [if_neg hc]
      have hlr1 : right = left + 1 := by omega
      refine ⟨left, rfl, le_refl _, hlr, hl, Or.inr ?_⟩
      intro h; rw [← hlr1]; exact hrv (by omega)

theorem to_ulong_of_wf (t : sym_table) (hwf : t.wf) : to_ulong t.symcount = t.syms.length := by
  obtain ⟨h1, h2⟩ := hwf
  unfold to_ulong
  rw [h1] at h2 ⊢
  have hlt : (t.syms.length : Int) < (WORD : Int) := by
    have : (WORD : Int) = 2 ^ 64 := by simp [WORD]
    omega
  rw [Int.emod_eq_of_lt (by omega) hlt]
  simp

/-- The range check of `symfind` on a well-formed table: an empty table, a key
below the first value or a key above the last value give `NULL`. -/
theorem symfind_table_null (t : sym_table) (addr : Nat) (hwf : t.wf)
    (h : t.symcount < 1 ∨ lookup_key t addr < value_at t.syms 0 ∨
      lookup_key t addr > value_at t.syms (t.syms.length - 1)) :
    symfind_table t addr = .ok (none, t.base_offset) := by
  unfold symfind_table
  simp only []
  by_cases hc : t.symcount < 1
  · rw [if_pos hc]
  · rw [if_neg hc]
    have hn : 0 < t.syms.length := by have := hwf.1; omega
    rw [read_of_lt t.syms 0 ⟨"", 0⟩ hn]
    simp only []
    by_cases h0 : sub64 addr t.base_offset < bfd_asymbol_value (t.syms.getD 0 ⟨"", 0⟩)
    · rw [if_pos h0]
    · rw [if_neg h0]
      have hidx : (t.symcount - 1).toNat = t.syms.length - 1 := by have := hwf.1; omega
      rw [hidx, read_of_lt t.syms (t.syms.length - 1) ⟨"", 0⟩ (by omega)]
      simp only []
      rcases h with h | h | h
      · exact absurd h hc
      · exact absurd h h0
      · exact if_pos h

/-- The search of `symfind` on a well-formed table that passes the range
check: it returns the symbol at an index `l` of the table whose value is at
most the key, and either that value is the key or the next value (if there
is one) exceeds the key. -/
theorem symfind_table_some (t : sym_table) (addr : Nat) (hwf : t.wf)
    (hc : ¬ t.symcount < 1) (h0 : value_at t.syms 0 ≤ lookup_key t addr)
    (h1 : lookup_key t addr ≤ value_at t.syms (t.syms.length - 1)) :
    ∃ l, l < t.syms.length ∧
      symfind_table t addr = .ok (some (t.syms.getD l ⟨"", 0⟩), t.base_offset) ∧
      value_at t.syms l ≤ lookup_key t addr ∧
      (value_at t.syms l = lookup_key t addr ∨
        (l + 1 < t.syms.length → lookup_key t addr < value_at t.syms (l + 1))) := by
  have hn : 0 < t.syms.length := by have := hwf.1; omega
  have hlen : t.syms.length < 2 ^ 63 := by have := hwf.1; have := hwf.2; omega
  obtain ⟨l, he, _, hl, hv, hnext⟩ :=
    symfind_loop_spec t.syms (lookup_key t addr) hlen t.syms.length 0 t.syms.length hn
      (le_refl _) (by omega) h0 (fun h => absurd h (lt_irrefl _))
  refine ⟨l, hl, ?_, hv, hnext⟩
  unfold symfind_table
  simp only []
  rw [if_neg hc, read_of_lt t.syms 0 ⟨"", 0⟩ hn]
  simp only []
  rw [if_neg (by unfold lookup_key value_at at h0; omega)]
  have hidx : (t.symcount - 1).toNat = t.syms.length - 1 := by have := hwf.1; omega
  rw [hidx, read_of_lt t.syms (t.syms.length - 1) ⟨"", 0⟩ (by omega)]
  simp only []
  rw [if_neg (by unfold lookup_key value_at at h1; omega), to_ulong_of_wf t hwf]
  unfold lookup_key at he
  rw [he]
  simp only []
  rw [read_of_lt t.syms l ⟨"", 0⟩ hl]

/-- In a sorted table the values increase with the index. -/
theorem value_at_mono (t : sym_table) (hs : t.sorted) (i j : Nat) (hij : i ≤ j)
    (hj : j < t.syms.length) : value_at t.syms i ≤ value_at t.syms j := by
  rcases Nat.eq_or_lt_of_le hij with h | h
  · subst h; exact le_refl _
  · have hi : i < t.syms.length := by omega
    unfold value_at
    rw [List.getD_eq_getElem _ _ hi, List.getD_eq_getElem _ _ hj]
    exact (List.pairwise_iff_getElem.mp hs) i j hi hj h

theorem exists_index_of_mem (syms : List asymbol) (s : asymbol) (hs : s ∈ syms) :
    ∃ i, i < syms.length ∧ syms.getD i ⟨"", 0⟩ = s := by
  obtain ⟨i, hi, he⟩ := List.getElem_of_mem hs
  exact ⟨i, hi, by rw [List.getD_eq_getElem _ _ hi]; exact he⟩

theorem getD_mem (syms : List asymbol) (i : Nat) (hi : i < syms.length) :
    syms.getD i ⟨"", 0⟩ ∈ syms := by
  rw [List.getD_eq_getElem _ _ hi]
  exact List.getElem_mem _

/-- The offset computed by `__print_address` after `symfind` returned the
symbol `s` of the table chosen for `vma`. -/
theorem print_address_lookup_of_symfind (reg : registry) (vma bo0 bo : Nat) (s : asymbol)
    (h : symfind reg vma bo0 = .ok (some s, bo)) :
    print_address_lookup reg vma bo0 =
      .ok (some (s, sub64 (sub64 vma bo) (bfd_asymbol_value s))) := by
  unfold print_address_lookup
  rw [h]

/-- C1. Nearest-at-or-below between symbols: when the table chosen for the
address is sorted and the lookup key lies strictly between two consecutive
symbol values `v1 < v2` of it, `symfind` returns a symbol of that table with
value `v1`, and `__print_address` computes the offset `key - v1`. -/
theorem symfind_between_symbols (reg : registry) (addr bo0 k v1 v2 : Nat)
    (hreg : reg.wf) (hk : selects reg addr k)
    (hwf : (table_at reg k).wf) (hs : (table_at reg k).sorted)
    (hv1 : ∃ s ∈ (table_at reg k).syms, bfd_asymbol_value s = v1)
    (hv2 : ∃ s ∈ (table_at reg k).syms, bfd_asymbol_value s = v2)
    (hcons : ∀ s ∈ (table_at reg k).syms,
      ¬ (v1 < bfd_asymbol_value s ∧ bfd_asymbol_value s < v2))
    (hlo : v1 < lookup_key (table_at reg k) addr)
    (hhi : lookup_key (table_at reg k) addr < v2) :
    ∃ s, s ∈ (table_at reg k).syms ∧ bfd_asymbol_value s = v1 ∧
      symfind reg addr bo0 = .ok (some s, (table_at reg k).base_offset) ∧
      print_address_lookup reg addr bo0 =
        .ok (some (s, lookup_key (table_at reg k) addr - v1)) := by
  obtain ⟨s1, hs1, hs1v⟩ := hv1
  obtain ⟨s2, hs2, hs2v⟩ := hv2
  obtain ⟨i1, hi1, he1⟩ := exists_index_of_mem _ s1 hs1
  obtain ⟨i2, hi2, he2⟩ := exists_index_of_mem _ s2 hs2
  have hn : 0 < (table_at reg k).syms.length := by omega
  have hc : ¬ (table_at reg k).symcount < 1 := by have := hwf.1; omega
  have hval1 : value_at (table_at reg k).syms i1 = v1 := by unfold value_at; rw [he1, hs1v]
  have hval2 : value_at (table_at reg k).syms i2 = v2 := by unfold value_at; rw [he2, hs2v]
  have h0 : value_at (table_at reg k).syms 0 ≤ lookup_key (table_at reg k) addr := by
    have := value_at_mono _ hs 0 i1 (Nat.zero_le _) hi1
    omega
  have h1 : lookup_key (table_at reg k) addr ≤
      value_at (table_at reg k).syms ((table_at reg k).syms.length - 1) := by
    have := value_at_mono _ hs i2 ((table_at reg k).syms.length - 1) (by omega) (by omega)
    omega
  obtain ⟨l, hl, he, hle, hnext⟩ := symfind_table_some _ addr hwf hc h0 h1
  have hmem := getD_mem _ l hl
  have hnb := hcons _ hmem
  have hvl : value_at (table_at reg k).syms l = v1 := by
    have hge : v1 ≤ value_at (table_at reg k).syms l := by
      by_contra hlt
      have hil : l < i1 := by
        by_contra hge
        have := value_at_mono _ hs i1 l (by omega) hl
        omega
      rcases hnext with h | h
      · omega
      · have h3 := h (by omega)
        have := value_at_mono _ hs (l + 1) i1 (by omega) hi1
        omega
    unfold value_at at hge hle ⊢
    omega
  refine ⟨_, hmem, hvl, ?_, ?_⟩
  · rw [symfind_of_selects reg addr bo0 k hreg hk, he]
  · have hsf : symfind reg addr bo0 =
        .ok (some ((table_at reg k).syms.getD l ⟨"", 0⟩), (table_at reg k).base_offset) := by
      rw [symfind_of_selects reg addr bo0 k hreg hk, he]
    rw [print_address_lookup_of_symfind reg addr bo0 _ _ hsf]
    have hv : bfd_asymbol_value ((table_at reg k).syms.getD l ⟨"", 0⟩) = v1 := hvl
    rw [hv]
    have : sub64 addr (table_at reg k).base_offset = lookup_key (table_at reg k) addr := rfl
    rw [this, sub64_of_le _ _ (le_of_lt hlo) (sub64_lt _ _)]

/-- C1 at the address `0x10060` of `reg_two`, between `foo` and `bar`. -/
theorem symfind_between_symbols_witness :
    ∃ s, s ∈ (table_at reg_two 0).syms ∧ bfd_asymbol_value s = 0x10050 ∧
      symfind reg_two 0x10060 7 = .ok (some s, (table_at reg_two 0).base_offset) ∧
      print_address_lookup reg_two 0x10060 7 =
        .ok (some (s, lookup_key (table_at reg_two 0) 0x10060 - 0x10050)) :=
  symfind_between_symbols reg_two 0x10060 7 0 0x10050 0x10100 (by decide) (by decide)
    (by decide) (by decide) ⟨⟨"foo", 0x10050⟩, by decide, rfl⟩ ⟨⟨"bar", 0x10100⟩, by decide, rfl⟩
    (by decide) (by decide) (by decide)

/-- C2. Exact match: when the table chosen for the address is sorted and the
lookup key is the value of some symbol of it, `symfind` returns a symbol of
that table whose value is the key (whether or not other symbols share the
value), and `__print_address` computes the offset 0. -/
theorem symfind_exact_match (reg : registry) (addr bo0 k : Nat)
    (hreg : reg.wf) (hk : selects reg addr k)
    (hwf : (table_at reg k).wf) (hs : (table_at reg k).sorted)
    (hv : ∃ s ∈ (table_at reg k).syms,
      bfd_asymbol_value s = lookup_key (table_at reg k) addr) :
    ∃ s, s ∈ (table_at reg k).syms ∧
      bfd_asymbol_value s = lookup_key (table_at reg k) addr ∧
      symfind reg addr bo0 = .ok (some s, (table_at reg k).base_offset) ∧
      print_address_lookup reg addr bo0 = .ok (some (s, 0)) := by
  obtain ⟨s0, hs0, hs0v⟩ := hv
  obtain ⟨i0, hi0, he0⟩ := exists_index_of_mem _ s0 hs0
  have hc : ¬ (table_at reg k).symcount < 1 := by have := hwf.1; omega
  have hval0 : value_at (table_at reg k).syms i0 = lookup_key (table_at reg k) addr := by
    unfold value_at; rw [he0, hs0v]
  have h0 : value_at (table_at reg k).syms 0 ≤ lookup_key (table_at reg k) addr := by
    have := value_at_mono _ hs 0 i0 (Nat.zero_le _) hi0
    omega
  have h1 : lookup_key (table_at reg k) addr ≤
      value_at (table_at reg k).syms ((table_at reg k).syms.length - 1) := by
    have := value_at_mono _ hs i0 ((table_at reg k).syms.length - 1) (by omega) (by omega)
    omega
  obtain ⟨l, hl, he, hle, hnext⟩ := symfind_table_some _ addr hwf hc h0 h1
  have hmem := getD_mem _ l hl
  have hvl : value_at (table_at reg k).syms l = lookup_key (table_at reg k) addr := by
    rcases hnext with h | h
    · exact h
    · by_cases hil : i0 ≤ l
      · have := value_at_mono _ hs i0 l hil hl
        omega
      · have h3 := h (by omega)
        have := value_at_mono _ hs (l + 1) i0 (by omega) hi0
        omega
  have hsf : symfind reg addr bo0 =
      .ok (some ((table_at reg k).syms.getD l ⟨"", 0⟩), (table_at reg k).base_offset) := by
    rw [symfind_of_selects reg addr bo0 k hreg hk, he]
  refine ⟨_, hmem, hvl, hsf, ?_⟩
  rw [print_address_lookup_of_symfind reg addr bo0 _ _ hsf]
  have hv : bfd_asymbol_value ((table_at reg k).syms.getD l ⟨"", 0⟩) =
      lookup_key (table_at reg k) addr := hvl
  rw [hv]
  have : sub64 addr (table_at reg k).base_offset = lookup_key (table_at reg k) addr := rfl
  rw [this, sub64_of_le (lookup_key (table_at reg k) addr) _ (le_refl _)
    (by unfold lookup_key; exact sub64_lt _ _), Nat.sub_self]

/-- C2 at the address `0x7f0020` of `reg_two`, whose key `0x20` is the value
of the two symbols `a` and `b`. -/
theorem symfind_exact_match_witness :
    ∃ s, s ∈ (table_at reg_two 1).syms ∧
      bfd_asymbol_value s = lookup_key (table_at reg_two 1) 0x7f0020 ∧
      symfind reg_two 0x7f0020 7 = .ok (some s, (table_at reg_two 1).base_offset) ∧
      print_address_lookup reg_two 0x7f0020 7 = .ok (some (s, 0)) :=
  symfind_exact_match reg_two 0x7f0020 7 1 (by decide) (by decide) (by decide) (by decide)
    ⟨⟨"a", 0x20⟩, by decide, by decide⟩

/-- A well-formed table never faults, and `symfind` stores its `base_offset`
through the out-parameter. -/
theorem symfind_table_ok (t : sym_table) (addr : Nat) (hwf : t.wf) :
    ∃ r, symfind_table t addr = .ok (r, t.base_offset) := by
  by_cases h : t.symcount < 1 ∨ lookup_key t addr < value_at t.syms 0 ∨
      lookup_key t addr > value_at t.syms (t.syms.length - 1)
  · exact ⟨none, symfind_table_null t addr hwf h⟩
  · simp only [not_or, not_lt] at h
    obtain ⟨l, _, he, _⟩ := symfind_table_some t addr hwf (by omega) h.2.1 (by omega)
    exact ⟨_, he⟩

/-- C3. Table selection: with no registered table at or below the address
(in particular with no table at all) `symfind` returns `NULL` and leaves the
out-parameter alone; otherwise it runs on a registered table `k` whose
`base_address` is the largest among the registered tables at or below the
address, and stores the `base_offset` of that table through the
out-parameter. -/
theorem symfind_table_selection (reg : registry) (addr bo0 : Nat) (hreg : reg.wf)
    (hall : ∀ j, j < reg.nr_sym_tables → (table_at reg j).wf) :
    ((∀ j, j < reg.nr_sym_tables → ¬ (table_at reg j).base_address ≤ addr) →
      symfind reg addr bo0 = .ok (none, bo0)) ∧
    ((∃ j, j < reg.nr_sym_tables ∧ (table_at reg j).base_address ≤ addr) →
      ∃ k, k < reg.nr_sym_tables ∧ (table_at reg k).base_address ≤ addr ∧
        (∀ j, j < reg.nr_sym_tables → (table_at reg j).base_address ≤ addr →
          (table_at reg j).base_address ≤ (table_at reg k).base_address) ∧
        symfind reg addr bo0 = symfind_table (table_at reg k) addr ∧
        ∃ r, symfind reg addr bo0 = .ok (r, (table_at reg k).base_offset)) := by
  rcases symfind_cases reg addr bo0 hreg with ⟨hno, he⟩ | ⟨k, hk, he⟩
  · refine ⟨fun _ => he, fun hex => ?_⟩
    obtain ⟨j, hj, hle⟩ := hex
    exact absurd hle (hno j hj)
  · refine ⟨fun hno => absurd hk.2.1 (hno k hk.1), fun _ => ?_⟩
    obtain ⟨r, hr⟩ := symfind_table_ok (table_at reg k) addr (hall k hk.1)
    exact ⟨k, hk.1, hk.2.1, fun j hj hle => (hk.2.2 j hj hle).1, he, r, by rw [he, hr]⟩

/-- C3 at the address `0x7f0020` of `reg_two`, above both tables, and at the
address `0xfff`, below both. -/
theorem symfind_table_selection_witness :
    (((∀ j, j < reg_two.nr_sym_tables → ¬ (table_at reg_two j).base_address ≤ 0xfff) →
      symfind reg_two 0xfff 7 = .ok (none, 7)) ∧
    ((∃ j, j < reg_two.nr_sym_tables ∧ (table_at reg_two j).base_address ≤ 0xfff) →
      ∃ k, k < reg_two.nr_sym_tables ∧ (table_at reg_two k).base_address ≤ 0xfff ∧
        (∀ j, j < reg_two.nr_sym_tables → (table_at reg_two j).base_address ≤ 0xfff →
          (table_at reg_two j).base_address ≤ (table_at reg_two k).base_address) ∧
        symfind reg_two 0xfff 7 = symfind_table (table_at reg_two k) 0xfff ∧
        ∃ r, symfind reg_two 0xfff 7 = .ok (r, (table_at reg_two k).base_offset))) ∧
    symfind reg_two 0xfff 7 = .ok (none, 7) ∧
    symfind reg_two 0x7f0020 7 = .ok (some ⟨"b", 0x20⟩, 0x7f0000) :=
  ⟨symfind_table_selection reg_two 0xfff 7 (by decide) (by decide), by decide, by decide⟩

/-- C4. Range check: on the table chosen for the address, an empty table
(`symcount < 1`), a key below the value of the first symbol or a key above
the value of the last symbol make `symfind` return `NULL`; hence so does a key
below every symbol value of the table, or above every one. The
out-parameter holds the `base_offset` of the table. -/
theorem symfind_range_check (reg : registry) (addr bo0 k : Nat)
    (hreg : reg.wf) (hk : selects reg addr k) (hwf : (table_at reg k).wf) :
    ((table_at reg k).symcount < 1 ∨
      lookup_key (table_at reg k) addr < value_at (table_at reg k).syms 0 ∨
      lookup_key (table_at reg k) addr >
        value_at (table_at reg k).syms ((table_at reg k).syms.length - 1) →
      symfind reg addr bo0 = .ok (none, (table_at reg k).base_offset)) ∧
    ((∀ s ∈ (table_at reg k).syms, lookup_key (table_at reg k) addr < bfd_asymbol_value s) ∨
      (∀ s ∈ (table_at reg k).syms, bfd_asymbol_value s < lookup_key (table_at reg k) addr) →
      symfind reg addr bo0 = .ok (none, (table_at reg k).base_offset)) := by
  have hmain : (table_at reg k).symcount < 1 ∨
      lookup_key (table_at reg k) addr < value_at (table_at reg k).syms 0 ∨
      lookup_key (table_at reg k) addr >
        value_at (table_at reg k).syms ((table_at reg k).syms.length - 1) →
      symfind reg addr bo0 = .ok (none, (table_at reg k).base_offset) := by
    intro h
    rw [symfind_of_selects reg addr bo0 k hreg hk]
    exact symfind_table_null _ addr hwf h
  refine ⟨hmain, fun h => hmain ?_⟩
  by_cases hc : (table_at reg k).symcount < 1
  · exact Or.inl hc
  · right
    have hn : 0 < (table_at reg k).syms.length := by have := hwf.1; omega
    rcases h with h | h
    · left
      exact h _ (getD_mem _ 0 hn)
    · right
      exact h _ (getD_mem _ _ (by omega))

/-- C4 at the address `0x10101` of `reg_two`, just above the last symbol of
the first table. -/
theorem symfind_range_check_witness :
    symfind reg_two 0x10101 7 = .ok (none, (table_at reg_two 0).base_offset) :=
  (symfind_range_check reg_two 0x10101 7 0 (by decide) (by decide) (by decide)).1
    (Or.inr (Or.inr (by decide)))

/-! ## Lemmas on `build_symtab` and `syminit` -/

theorem take_succ_set {α : Type} (xs : List α) (n : Nat) (a : α) (h : n < xs.length) :
    (xs.set n a).take (n + 1) = xs.take n ++ [a] := by
  induction xs generalizing n with
  | nil => simp at h
  | cons x xs ih =>
    cases n with
    | zero => simp
    | succ n =>
      simp only [List.set_cons_succ, List.take_succ_cons, List.cons_append, List.cons.injEq,
        true_and]
      exact ih n (by simpa using h)

theorem to_ulong_le (n : Nat) : to_ulong (n : Int) ≤ n := by
  unfold to_ulong
  have hw : (WORD : Int) = 18446744073709551616 := by simp [WORD]
  rw [hw]
  omega

/-- The call of `qsort` in `build_symtab` stays inside the array when the count
is the number of entries. -/
theorem qsort_call_length (qsort : (asymbol → asymbol → Int) → List asymbol → List asymbol)
    (base : List asymbol) :
    ∃ r, qsort_call qsort base (to_ulong (base.length : Int)) symcmp = .ok r := by
  unfold qsort_call
  rw [if_pos (to_ulong_le base.length)]
  exact ⟨_, rfl⟩

/-- Reading and sorting the symbols of a readable object does not fault. -/
theorem build_symtab_readable
    (qsort : (asymbol → asymbol → Int) → List asymbol → List asymbol) (abfd : bfd)
    (syms0 : List asymbol) (symcount0 : Int) (h : abfd.readable) :
    ∃ r, build_symtab qsort abfd syms0 symcount0 = .ok r := by
  unfold build_symtab
  cases hs : abfd.has_syms with
  | false => exact ⟨(syms0, symcount0), by simp⟩
  | true =>
    obtain ⟨h1, h2⟩ := h hs
    simp only [Bool.not_true, Bool.false_eq_true, if_false, bfd_read_minisymbols]
    cases hst : abfd.static_syms with
    | none => exact absurd hst h1
    | some l =>
      cases l with
      | nil =>
        simp only [beq_self_eq_true, if_true]
        cases hdy : abfd.dynamic_syms with
        | none => exact absurd hdy (h2 hst)
        | some d =>
          cases d with
          | nil =>
            have hq : qsort_call qsort syms0 (to_ulong 0) symcmp =
                .ok (qsort symcmp (syms0.take 0) ++ syms0.drop 0) := by
              unfold qsort_call
              have : to_ulong 0 = 0 := by decide
              rw [this, if_pos (Nat.zero_le _)]
            simp only [hq]
            exact ⟨_, rfl⟩
          | cons y ys =>
            obtain ⟨r, hr⟩ := qsort_call_length qsort (y :: ys)
            simp only [hr]
            exact ⟨_, rfl⟩
      | cons x xs =>
        have hne : ((((x :: xs).length : Nat) : Int) == 0) = false := by
          simp only [List.length_cons, beq_eq_false_iff_ne, ne_eq]
          omega
        simp only [hne, Bool.false_eq_true, if_false]
        obtain ⟨r, hr⟩ := qsort_call_length qsort (x :: xs)
        simp only [hr]
        exact ⟨_, rfl⟩

/-- The table `build_symtab` leaves for an object with static symbols. -/
theorem build_symtab_static (qsort : (asymbol → asymbol → Int) → List asymbol → List asymbol)
    (obj : Bool) (x : asymbol) (xs : List asymbol) (dyn : Option (List asymbol))
    (syms0 : List asymbol) (symcount0 : Int) (hlen : (x :: xs).length < WORD) :
    build_symtab qsort ⟨obj, true, some (x :: xs), dyn⟩ syms0 symcount0 =
      .ok (qsort symcmp (x :: xs), ((x :: xs).length : Int)) := by
  have hne : ((((x :: xs).length : Nat) : Int) == 0) = false := by
    simp only [List.length_cons, beq_eq_false_iff_ne, ne_eq]
    omega
  have hto : to_ulong (((x :: xs).length : Nat) : Int) = (x :: xs).length := by
    unfold to_ulong
    have h2 : (((x :: xs).length : Nat) : Int) < (WORD : Int) := by exact_mod_cast hlen
    rw [Int.emod_eq_of_lt (by omega) h2]
    simp
  unfold build_symtab
  simp only [Bool.not_true, Bool.false_eq_true, if_false, bfd_read_minisymbols]
  rw [hne]
  simp only [Bool.false_eq_true, if_false]
  unfold qsort_call
  rw [hto, if_pos (le_refl _)]
  simp

/-- A call of `syminit` on a file that does not open as an object leaves the
registry as it is. -/
theorem syminit_closed (env : libs) (file : String) (ba bo : Nat) (reg : registry)
    (hop : opens env ⟨file, ba, bo⟩ = false) : syminit env file ba bo TARGET reg = .ok reg := by
  unfold opens at hop
  unfold syminit
  cases hopen : env.bfd_openr file TARGET with
  | none => rfl
  | some abfd =>
    rw [hopen] at hop
    simp only at hop
    simp [hop]

/-- A call of `syminit` on a file that opens as an object when all entries of
the array are taken accesses the array past its end. -/
theorem syminit_full (env : libs) (file : String) (ba bo : Nat) (reg : registry)
    (hop : opens env ⟨file, ba, bo⟩ = true)
    (hfull : reg.sym_tables.length ≤ reg.nr_sym_tables) :
    syminit env file ba bo TARGET reg = .error .out_of_bounds := by
  unfold opens at hop
  unfold syminit
  cases hopen : env.bfd_openr file TARGET with
  | none => rw [hopen] at hop; simp at hop
  | some abfd =>
    rw [hopen] at hop
    simp only at hop
    simp only [hop, Bool.not_true, Bool.false_eq_true, if_false]
    have : reg.sym_tables[reg.nr_sym_tables]? = none := List.getElem?_eq_none hfull
    simp [read, this]

/-- A call of `syminit` on a file that opens as an object, with room in the
array: entry `nr_sym_tables` is filled with what `build_symtab` leaves and
with the two addresses, and `nr_sym_tables` grows by one. -/
theorem syminit_open (env : libs) (file : String) (ba bo : Nat) (reg : registry) (abfd : bfd)
    (hopen : env.bfd_openr file TARGET = some abfd) (hobj : abfd.is_object = true)
    (hroom : reg.nr_sym_tables < reg.sym_tables.length) (hlen : reg.sym_tables.length < WORD) :
    syminit env file ba bo TARGET reg =
      match build_symtab env.qsort abfd (table_at reg reg.nr_sym_tables).syms
          (table_at reg reg.nr_sym_tables).symcount with
      | .error e => .error e
      | .ok r =>
        .ok ⟨reg.sym_tables.set reg.nr_sym_tables ⟨r.2, r.1, ba, bo⟩,
          reg.nr_sym_tables + 1⟩ := by
  unfold syminit
  simp only [hopen, hobj, Bool.not_true, Bool.false_eq_true, if_false]
  rw [read_of_lt reg.sym_tables reg.nr_sym_tables zero_table hroom]
  simp only [table_at]
  cases build_symtab env.qsort abfd (reg.sym_tables.getD reg.nr_sym_tables zero_table).syms
      (reg.sym_tables.getD reg.nr_sym_tables zero_table).symcount with
  | error e => rfl
  | ok r =>
    simp only [write, if_pos hroom]
    rw [Nat.mod_eq_of_lt (by omega)]

theorem opens_iff (env : libs) (c : syminit_call) :
    opens env c = true ↔
      ∃ abfd, env.bfd_openr c.file TARGET = some abfd ∧ abfd.is_object = true := by
  unfold opens
  cases h : env.bfd_openr c.file TARGET with
  | none => simp
  | some abfd => simp

theorem registered_after_syminit (reg : registry) (t : sym_table)
    (hroom : reg.nr_sym_tables < reg.sym_tables.length) :
    registered ⟨reg.sym_tables.set reg.nr_sym_tables t, reg.nr_sym_tables + 1⟩ =
      registered reg ++ [t] := by
  unfold registered
  exact take_succ_set reg.sym_tables reg.nr_sym_tables t hroom

/-! ## Lemmas on `initialise_mem_map` -/

theorem first_rule_snoc (calls : List syminit_call) (first : Bool) (f : String) (s : Nat)
    (hfirst : first = true ↔ calls = []) (hrule : first_rule calls) :
    first_rule (calls ++ [⟨f, s, if (first == true) = true then 0 else s⟩]) := by
  intro c rest hc
  cases calls with
  | nil =>
    have hf : first = true := hfirst.mpr rfl
    rw [hf] at hc
    simp only [List.nil_append, List.cons.injEq] at hc
    obtain ⟨h1, h2⟩ := hc
    subst h1 h2
    exact ⟨by simp, fun d hd => by simp at hd⟩
  | cons c0 rest0 =>
    have hf : first = false := by
      cases h : first with
      | false => rfl
      | true => have := hfirst.mp h; simp at this
    rw [hf] at hc
    simp only [List.cons_append, List.cons.injEq] at hc
    obtain ⟨h1, h2⟩ := hc
    have h0 := hrule c0 rest0 rfl
    subst h1 h2
    refine ⟨h0.1, fun d hd => ?_⟩
    rcases List.mem_append.mp hd with h | h
    · exact h0.2 d h
    · simp only [List.mem_singleton] at h
      subst h
      simp

/-- The invariant after a call of `syminit` whose file does not open. -/
theorem map_inv_closed (env : libs) (st : map_state) (vars : locals) (f : String) (s : Nat)
    (hinv : map_inv env st)
    (hop : opens env ⟨f, s, if (st.first == true) = true then 0 else s⟩ = false) :
    map_inv env ⟨false, vars, st.reg,
      st.calls ++ [⟨f, s, if (st.first == true) = true then 0 else s⟩]⟩ := by
  obtain ⟨hfirst, hrule, hle, hmap⟩ := hinv
  refine ⟨by simp, first_rule_snoc st.calls st.first f s hfirst hrule, hle, ?_⟩
  simp only [List.filter_append, List.filter_cons, hop, List.filter_nil, List.append_nil]
  simpa using hmap

/-- The invariant after a call of `syminit` that registers a table. -/
theorem map_inv_open (env : libs) (st : map_state) (vars : locals) (f : String) (s : Nat)
    (syms : List asymbol) (symcount : Int) (hinv : map_inv env st)
    (hop : opens env ⟨f, s, if (st.first == true) = true then 0 else s⟩ = true)
    (hroom : st.reg.nr_sym_tables < st.reg.sym_tables.length) :
    map_inv env ⟨false, vars,
      ⟨st.reg.sym_tables.set st.reg.nr_sym_tables
        ⟨symcount, syms, s, if (st.first == true) = true then 0 else s⟩,
        st.reg.nr_sym_tables + 1⟩,
      st.calls ++ [⟨f, s, if (st.first == true) = true then 0 else s⟩]⟩ := by
  obtain ⟨hfirst, hrule, hle, hmap⟩ := hinv
  refine ⟨by simp, first_rule_snoc st.calls st.first f s hfirst hrule, ?_, ?_⟩
  · simp only [List.length_set]; omega
  · simp only []
    rw [registered_after_syminit st.reg _ hroom]
    simp only [List.filter_append, List.filter_cons, hop, List.filter_nil, List.map_append,
      List.map_cons, List.map_nil, if_true]
    rw [hmap]

/-- An iteration of the loop of `initialise_mem_map` that stays inside the
array keeps `map_inv` and the size of the array, and registers at most one
table. -/
theorem mem_map_line_ok (env : libs) (st st1 : map_state) (line : scanned)
    (hinv : map_inv env st) (hlen : st.reg.sym_tables.length < WORD)
    (h : mem_map_line env st line = .ok st1) :
    map_inv env st1 ∧ st1.reg.sym_tables.length = st.reg.sym_tables.length ∧
      st1.reg.nr_sym_tables ≤ st.reg.nr_sym_tables + 1 := by
  unfold mem_map_line at h
  simp only [] at h
  by_cases hx : ((sscanf_line line st.vars).perm.getD 2 NUL != 'x') = true
  · rw [if_pos hx] at h
    cases h
    exact ⟨hinv, rfl, Nat.le_succ _⟩
  · rw [if_neg hx] at h
    cases hop : opens env ⟨c_str (sscanf_line line st.vars).library,
        (sscanf_line line st.vars).start,
        if (st.first == true) = true then 0 else (sscanf_line line st.vars).start⟩ with
    | false =>
      rw [syminit_closed env _ _ _ st.reg hop] at h
      cases h
      exact ⟨map_inv_closed env st _ _ _ hinv hop, rfl, Nat.le_succ _⟩
    | true =>
      by_cases hroom : st.reg.nr_sym_tables < st.reg.sym_tables.length
      · obtain ⟨abfd, hopen, hobj⟩ := (opens_iff env _).mp hop
        rw [syminit_open env _ _ _ st.reg abfd hopen hobj hroom hlen] at h
        cases hb : build_symtab env.qsort abfd (table_at st.reg st.reg.nr_sym_tables).syms
            (table_at st.reg st.reg.nr_sym_tables).symcount with
        | error e => rw [hb] at h; cases h
        | ok r =>
          rw [hb] at h
          cases h
          exact ⟨map_inv_open env st _ _ _ r.1 r.2 hinv hop hroom, by simp, le_refl _⟩
      · rw [syminit_full env _ _ _ st.reg hop (by omega)] at h
        cases h

/-- An iteration of the loop of `initialise_mem_map` with room in the array
and readable objects stays inside the array. -/
theorem mem_map_line_total (env : libs) (st : map_state) (line : scanned)
    (hread : env.readable) (hroom : st.reg.nr_sym_tables < st.reg.sym_tables.length)
    (hlen : st.reg.sym_tables.length < WORD) :
    ∃ st1, mem_map_line env st line = .ok st1 := by
  unfold mem_map_line
  simp only []
  by_cases hx : ((sscanf_line line st.vars).perm.getD 2 NUL != 'x') = true
  · rw [if_pos hx]
    exact ⟨_, rfl⟩
  · rw [if_neg hx]
    cases hop : opens env ⟨c_str (sscanf_line line st.vars).library,
        (sscanf_line line st.vars).start,
        if (st.first == true) = true then 0 else (sscanf_line line st.vars).start⟩ with
    | false =>
      rw [syminit_closed env _ _ _ st.reg hop]
      exact ⟨_, rfl⟩
    | true =>
      obtain ⟨abfd, hopen, hobj⟩ := (opens_iff env _).mp hop
      rw [syminit_open env _ _ _ st.reg abfd hopen hobj hroom hlen]
      obtain ⟨r, hr⟩ := build_symtab_readable env.qsort abfd
        (table_at st.reg st.reg.nr_sym_tables).syms
        (table_at st.reg st.reg.nr_sym_tables).symcount (hread _ abfd hopen)
      rw [hr]
      exact ⟨_, rfl⟩

/-- The loop of `initialise_mem_map` stays inside the array when the objects
are readable and the array has room for one table per line. -/
theorem mem_map_loop_total (env : libs) (hread : env.readable) :
    ∀ (lines : List scanned) (st : map_state), map_inv env st →
      st.reg.nr_sym_tables + lines.length ≤ st.reg.sym_tables.length →
      st.reg.sym_tables.length < WORD →
      ∃ st1, mem_map_loop env lines st = .ok st1 := by
  intro lines
  induction lines with
  | nil => intro st _ _ _; exact ⟨st, rfl⟩
  | cons line rest ih =>
    intro st hinv hroom hlen
    simp only [List.length_cons] at hroom
    obtain ⟨st1, he1⟩ := mem_map_line_total env st line hread (by omega) hlen
    obtain ⟨hinv1, hl1, hn1⟩ := mem_map_line_ok env st st1 line hinv hlen he1
    obtain ⟨st2, he2⟩ := ih st1 hinv1 (by omega) (by omega)
    refine ⟨st2, ?_⟩
    rw [mem_map_loop, he1]
    exact he2

/-- A run of the loop of `initialise_mem_map` that stays inside the array
keeps `map_inv`. -/
theorem mem_map_loop_ok (env : libs) :
    ∀ (lines : List scanned) (st st1 : map_state), map_inv env st →
      st.reg.sym_tables.length < WORD → mem_map_loop env lines st = .ok st1 →
      map_inv env st1 := by
  intro lines
  induction lines with
  | nil =>
    intro st st1 hinv _ h
    rw [mem_map_loop] at h
    cases h
    exact hinv
  | cons line rest ih =>
    intro st st1 hinv hlen h
    rw [mem_map_loop] at h
    cases he : mem_map_line env st line with
    | error e => rw [he] at h; cases h
    | ok st2 =>
      rw [he] at h
      obtain ⟨hinv2, hl2, _⟩ := mem_map_line_ok env st st2 line hinv hlen he
      exact ih st2 st1 hinv2 (by omega) h

theorem map_inv_initial (env : libs) (vars0 : locals) (reg : registry)
    (h0 : reg.nr_sym_tables = 0) : map_inv env ⟨true, vars0, reg, []⟩ := by
  refine ⟨by simp, fun c rest h => by simp at h, by simp [h0], ?_⟩
  simp [registered, h0]

theorem first_rule_mem (calls : List syminit_call) (h : first_rule calls) :
    (∀ c ∈ calls, c.base_offset = 0 ∨ c.base_offset = c.base_address) ∧
    (∀ c ∈ calls.tail, c.base_offset = c.base_address) := by
  cases calls with
  | nil => exact ⟨fun c hc => by simp at hc, fun c hc => by simp at hc⟩
  | cons c0 rest =>
    obtain ⟨h1, h2⟩ := h c0 rest rfl
    refine ⟨fun c hc => ?_, fun c hc => h2 c hc⟩
    rcases List.mem_cons.mp hc with h | h
    · subst h; exact Or.inl h1
    · exact Or.inr (h2 c h)

theorem tail_filter_subset (p : syminit_call → Bool) (calls : List syminit_call) :
    ∀ c ∈ (calls.filter p).tail, c ∈ calls.tail := by
  cases calls with
  | nil => intro c hc; simp at hc
  | cons c0 rest =>
    intro c hc
    by_cases h : p c0 = true
    · rw [List.filter_cons_of_pos h] at hc
      exact (List.mem_filter.mp hc).1
    · rw [List.filter_cons_of_neg h] at hc
      exact (List.mem_filter.mp (List.mem_of_mem_tail hc)).1

theorem env_two_readable : env_two.readable := by
  intro file abfd h
  simp only [env_two] at h
  split_ifs at h <;> cases h <;> intro hs <;> simp_all [obj_prog, obj_baz, obj_stripped]

/-! ## The comparator and `qsort` -/

theorem symcmp_le_zero_iff (a b : asymbol) :
    symcmp a b ≤ 0 ↔ bfd_asymbol_value a ≤ bfd_asymbol_value b := by
  unfold symcmp
  by_cases h : bfd_asymbol_value a > bfd_asymbol_value b
  · rw [if_pos h]; constructor
    · intro h1; omega
    · intro h1; omega
  · rw [if_neg h]; constructor
    · intro _; omega
    · intro _; exact le_refl _

theorem symcmp_nonneg (a b : asymbol) : ¬ symcmp a b < 0 := by
  unfold symcmp
  by_cases h : bfd_asymbol_value a > bfd_asymbol_value b
  · rw [if_pos h]; omega
  · rw [if_neg h]; omega

/-- The comparator `value_compare` keeps the comparator contract. -/
theorem value_compare_three_way : three_way value_compare := by
  refine ⟨fun a b => ?_, fun a b c => ?_⟩
  · unfold value_compare
    split_ifs <;> constructor <;> intro h <;> omega
  · unfold value_compare
    split_ifs <;> intro h1 h2 <;> omega

/-- The comparator `symcmp` does not keep the comparator contract: it is
never negative, also for a first symbol below the second. -/
theorem symcmp_not_three_way : ¬ three_way symcmp := by
  intro h
  have h1 := (h.1 sym_foo sym_bar).mpr (by decide)
  exact symcmp_nonneg _ _ h1

/-- The model `qsort_le` keeps the contract of `qsort`. -/
theorem qsort_le_conforms : qsort_conforms qsort_le := by
  intro compar hc base
  obtain ⟨hanti, htrans⟩ := hc
  haveI : IsTotal asymbol (fun a b => compar a b ≤ 0) :=
    ⟨fun a b => by
      by_cases h : compar a b ≤ 0
      · left; exact h
      · right
        have := (hanti b a).mpr (by omega)
        omega⟩
  haveI : IsTrans asymbol (fun a b => compar a b ≤ 0) := ⟨fun a b c h1 h2 => htrans a b c h1 h2⟩
  exact ⟨List.perm_insertionSort _ base, List.sorted_insertionSort (fun a b => compar a b ≤ 0) base⟩

/-- The model `qsort_le` sorts symbol arrays with `symcmp`. -/
theorem qsort_le_sorts : qsort_sorts qsort_le := by
  intro base
  haveI : IsTotal asymbol (fun a b => symcmp a b ≤ 0) :=
    ⟨fun a b => by
      simp only [symcmp_le_zero_iff]
      exact Nat.le_total _ _⟩
  haveI : IsTrans asymbol (fun a b => symcmp a b ≤ 0) :=
    ⟨fun a b c h1 h2 => by
      simp only [symcmp_le_zero_iff] at h1 h2 ⊢
      exact Nat.le_trans h1 h2⟩
  refine ⟨List.perm_insertionSort _ base, ?_⟩
  have hs := List.sorted_insertionSort (fun a b => symcmp a b ≤ 0) base
  exact List.Pairwise.imp (fun {a b} h => (symcmp_le_zero_iff a b).mp h) hs

theorem ok_of_map_ok {α β : Type} (r : Except fault α) (g : α → β) (b : β)
    (h : Except.map g r = .ok b) : ∃ a, r = .ok a ∧ g a = b := by
  cases r with
  | error e => simp [Except.map] at h
  | ok a =>
    simp only [Except.map, Except.ok.injEq] at h
    exact ⟨a, rfl, h⟩

set_option maxRecDepth 100000 in
/-- C9. A map listing of 257 executable regions whose object opens: after 256
of them `nr_sym_tables` is 256, and for the next one `syminit` accesses
`sym_tables[256]`, outside the array of `MAX_SYMS` entries. -/
theorem syminit_past_capacity :
    (∃ st, initialise_mem_map env_two (lines_many 256) vars_zero initial_registry = .ok st ∧
      (st.reg.nr_sym_tables, st.reg.sym_tables.length) = (256, MAX_SYMS)) ∧
    initialise_mem_map env_two (lines_many 257) vars_zero initial_registry =
      .error .out_of_bounds :=
  ⟨ok_of_map_ok _ (fun st => (st.reg.nr_sym_tables, st.reg.sym_tables.length)) _ (by decide),
    by decide⟩

set_option maxRecDepth 100000 in
/-- C10. A line without a path name whose permissions are `r-xp`: `sscanf`
converts three fields, its result is not looked at, and `syminit` is called
with the path name the previous line left in `library`; the listing with that
line registers two tables where the listing without it registers one. So
does a line from which `sscanf` converts nothing, after an executable
line. -/
theorem malformed_line_not_skipped :
    (∃ st, initialise_mem_map env_two [.all 0x10000 0x20000 "r-xp" "/bin/prog"] vars_zero
        initial_registry = .ok st ∧
      (st.reg.nr_sym_tables, st.calls) = (1, [⟨"/bin/prog", 0x10000, 0⟩])) ∧
    (∃ st, initialise_mem_map env_two lines_anon vars_zero initial_registry = .ok st ∧
      (st.reg.nr_sym_tables, st.calls) =
        (2, [⟨"/bin/prog", 0x10000, 0⟩, ⟨"/bin/prog", 0x7f0000, 0x7f0000⟩])) ∧
    (∃ st, initialise_mem_map env_two lines_blank vars_zero initial_registry = .ok st ∧
      (st.reg.nr_sym_tables, st.calls) =
        (2, [⟨"/bin/prog", 0x10000, 0⟩, ⟨"/bin/prog", 0x10000, 0x10000⟩])) :=
  ⟨ok_of_map_ok _ (fun st => (st.reg.nr_sym_tables, st.calls)) _ (by decide),
    ok_of_map_ok _ (fun st => (st.reg.nr_sym_tables, st.calls)) _ (by decide),
    ok_of_map_ok _ (fun st => (st.reg.nr_sym_tables, st.calls)) _ (by decide)⟩

/-! ## The end-to-end scenarios -/

theorem symfind_of_no_table (reg : registry) (addr bo0 : Nat) (hwf : reg.wf)
    (hno : ∀ j, j < reg.nr_sym_tables → ¬ (table_at reg j).base_address ≤ addr) :
    symfind reg addr bo0 = .ok (none, bo0) := by
  rcases symfind_cases reg addr bo0 hwf with ⟨_, he⟩ | ⟨k, hk, _⟩
  · exact he
  · exact absurd hk.2.1 (hno k hk.1)

/-- The content of the uninitialised local `base_offset` of `__print_address`
does not influence what it computes. -/
theorem print_address_lookup_indep (reg : registry) (vma bo0 bo1 : Nat) (hwf : reg.wf) :
    print_address_lookup reg vma bo0 = print_address_lookup reg vma bo1 := by
  unfold print_address_lookup
  rcases symfind_cases reg vma bo0 hwf with ⟨hno, he⟩ | ⟨k, hk, he⟩
  · rw [he, symfind_of_no_table reg vma bo1 hwf hno]
  · rw [he, symfind_of_selects reg vma bo1 k hwf hk]

/-- The text `__print_address` appends does not depend on the content of its
uninitialised local either. -/
theorem print_address_indep (reg : registry) (vma bo0 bo1 : Nat) (hwf : reg.wf) :
    __print_address reg vma bo0 = __print_address reg vma bo1 := by
  unfold __print_address
  rw [print_address_lookup_indep reg vma bo0 bo1 hwf]

/-- An iteration of the loop of `initialise_mem_map` on a well-formed line
with the permissions `r-xp`. -/
theorem mem_map_line_exec (env : libs) (st : map_state) (s e : Nat) (l : String)
    (hl : c_str (store_str l st.vars.library) = l) :
    mem_map_line env st (.all s e "r-xp" l) =
      match syminit env l s (if st.first == true then 0 else s) TARGET st.reg with
      | .error er => .error er
      | .ok reg =>
        .ok ⟨false, ⟨s, e, store_str "r-xp" st.vars.perm, store_str l st.vars.library⟩, reg,
          st.calls ++ [⟨l, s, if st.first == true then 0 else s⟩]⟩ := by
  unfold mem_map_line
  simp only [sscanf_line]
  have hx : ((store_str "r-xp" st.vars.perm).getD 2 NUL != 'x') = false := rfl
  rw [hx, hl]
  rfl

/-- The only ascending arrangement of `foo` and `bar`. -/
theorem sorted_perm_foo_bar (l : List asymbol) (hp : l.Perm [sym_foo, sym_bar])
    (hs : l.Pairwise (fun a b => bfd_asymbol_value a ≤ bfd_asymbol_value b)) :
    l = [sym_foo, sym_bar] := by
  have hlen := hp.length_eq
  match l, hlen with
  | [a, b], _ =>
    have ha : a ∈ [sym_foo, sym_bar] := hp.mem_iff.mp (by simp)
    have hb : b ∈ [sym_foo, sym_bar] := hp.mem_iff.mp (by simp)
    have hnd : [a, b].Nodup := hp.nodup_iff.mpr (by decide)
    have hab : a ≠ b := by
      intro h; subst h; simp at hnd
    have hle : bfd_asymbol_value a ≤ bfd_asymbol_value b := by
      simpa using hs
    simp only [List.mem_cons, List.mem_singleton, List.not_mem_nil, or_false] at ha hb
    rcases ha with ha | ha <;> rcases hb with hb | hb
    · subst ha hb; exact absurd rfl hab
    · subst ha hb; rfl
    · subst ha hb; exact absurd hle (by decide)
    · subst ha hb; exact absurd rfl hab

set_option maxRecDepth 100000 in
theorem initial_registry_room :
    initial_registry.nr_sym_tables < initial_registry.sym_tables.length ∧
    initial_registry.sym_tables.length < WORD ∧
    table_at initial_registry initial_registry.nr_sym_tables = zero_table := by
  decide

set_option maxRecDepth 100000 in
theorem reg_one_facts :
    reg_one.wf ∧ reg_one.nr_sym_tables < reg_one.sym_tables.length ∧
    reg_one.sym_tables.length < WORD ∧
    table_at reg_one reg_one.nr_sym_tables = zero_table ∧
    table_at reg_one 0 = ⟨2, [sym_foo, sym_bar], 0x10000, 0⟩ ∧
    print_address_lookup reg_one 0x10060 0 = .ok (some (sym_foo, 0x10)) ∧
    print_address_lookup reg_one 0x100ff 0 = .ok (some (sym_foo, 0xaf)) ∧
    print_address_lookup reg_one 0xfff 0 = .ok none ∧
    __print_address reg_one 0x10060 0 = .ok "10060 <foo+0x10> " ∧
    __print_address reg_one 0x100ff 0 = .ok "100ff <foo+0xaf> " ∧
    __print_address reg_one 0xfff 0 = .ok "fff " := by
  decide

/-- The loop state after the executable of the scenarios is loaded first, at
`0x10000`. -/
theorem first_region_registered (env : libs) (vars0 : locals) (e : Nat)
    (extracted : List asymbol) (dyn : Option (List asymbol))
    (hq : qsort_sorts env.qsort) (hx : extracted.Perm [sym_foo, sym_bar])
    (hopen : env.bfd_openr "/bin/prog" TARGET = some ⟨true, true, some extracted, dyn⟩) :
    mem_map_line env ⟨true, vars0, initial_registry, []⟩ (.all 0x10000 e "r-xp" "/bin/prog") =
      .ok ⟨false,
        ⟨0x10000, e, store_str "r-xp" vars0.perm, store_str "/bin/prog" vars0.library⟩,
        reg_one, [⟨"/bin/prog", 0x10000, 0⟩]⟩ := by
  have hlen := hx.length_eq
  match extracted, hx, hopen, hlen with
  | [a, b], hx, hopen, _ =>
    have hsort : env.qsort symcmp [a, b] = [sym_foo, sym_bar] :=
      sorted_perm_foo_bar _ ((hq [a, b]).1.trans hx) (hq [a, b]).2
    rw [mem_map_line_exec env _ 0x10000 e "/bin/prog" rfl]
    rw [syminit_open env "/bin/prog" 0x10000 _ initial_registry _ hopen rfl
      initial_registry_room.1 initial_registry_room.2.1]
    rw [initial_registry_room.2.2]
    rw [build_symtab_static env.qsort true a [b] dyn _ _ (by simp [WORD]), hsort]
    rfl

/-- C7. End-to-end scenario 1: the map listing has one executable region, at
`0x10000`, whose object holds the symbols `foo` (value `0x10050`) and `bar`
(value `0x10100`) in either order, and `qsort` sorts with `symcmp`. Then the
registry holds one table, with `base_offset` 0; `0x10060` resolves to `foo`
with offset `0x10`, `0x100ff` to `foo` with offset `0xaf`, and `0xfff` is
unresolved; `__print_address` appends `10060 <foo+0x10> `,
`100ff <foo+0xaf> ` and `fff `. -/
theorem scenario_one (env : libs) (vars0 : locals) (e bo0 : Nat)
    (extracted : List asymbol) (dyn : Option (List asymbol))
    (hq : qsort_sorts env.qsort) (hx : extracted.Perm [sym_foo, sym_bar])
    (hopen : env.bfd_openr "/bin/prog" TARGET = some ⟨true, true, some extracted, dyn⟩) :
    ∃ st, initialise_mem_map env [.all 0x10000 e "r-xp" "/bin/prog"] vars0 initial_registry =
        .ok st ∧
      st.reg.nr_sym_tables = 1 ∧
      table_at st.reg 0 = ⟨2, [sym_foo, sym_bar], 0x10000, 0⟩ ∧
      print_address_lookup st.reg 0x10060 bo0 = .ok (some (sym_foo, 0x10)) ∧
      print_address_lookup st.reg 0x100ff bo0 = .ok (some (sym_foo, 0xaf)) ∧
      print_address_lookup st.reg 0xfff bo0 = .ok none ∧
      __print_address st.reg 0x10060 bo0 = .ok "10060 <foo+0x10> " ∧
      __print_address st.reg 0x100ff bo0 = .ok "100ff <foo+0xaf> " ∧
      __print_address st.reg 0xfff bo0 = .ok "fff " := by
  have h1 := first_region_registered env vars0 e extracted dyn hq hx hopen
  obtain ⟨hwf, _, _, _, ht, ha, hb, hc, hpa, hpb, hpc⟩ := reg_one_facts
  refine ⟨⟨false,
    ⟨0x10000, e, store_str "r-xp" vars0.perm, store_str "/bin/prog" vars0.library⟩,
    reg_one, [⟨"/bin/prog", 0x10000, 0⟩]⟩, ?_, rfl, ht, ?_, ?_, ?_, ?_, ?_, ?_⟩
  · unfold initialise_mem_map
    rw [mem_map_loop, h1]
    rfl
  · show print_address_lookup reg_one 0x10060 bo0 = _
    rw [print_address_lookup_indep reg_one _ bo0 0 hwf]
    exact ha
  · show print_address_lookup reg_one 0x100ff bo0 = _
    rw [print_address_lookup_indep reg_one _ bo0 0 hwf]
    exact hb
  · show print_address_lookup reg_one 0xfff bo0 = _
    rw [print_address_lookup_indep reg_one _ bo0 0 hwf]
    exact hc
  · show __print_address reg_one 0x10060 bo0 = _
    rw [print_address_indep reg_one _ bo0 0 hwf]
    exact hpa
  · show __print_address reg_one 0x100ff bo0 = _
    rw [print_address_indep reg_one _ bo0 0 hwf]
    exact hpb
  · show __print_address reg_one 0xfff bo0 = _
    rw [print_address_indep reg_one _ bo0 0 hwf]
    exact hpc

/-- C7 on the file system `env_two`, whose executable lists `bar` before
`foo`. -/
theorem scenario_one_witness :
    ∃ st, initialise_mem_map env_two [.all 0x10000 0x20000 "r-xp" "/bin/prog"] vars_zero
        initial_registry = .ok st ∧
      st.reg.nr_sym_tables = 1 ∧
      table_at st.reg 0 = ⟨2, [sym_foo, sym_bar], 0x10000, 0⟩ ∧
      print_address_lookup st.reg 0x10060 7 = .ok (some (sym_foo, 0x10)) ∧
      print_address_lookup st.reg 0x100ff 7 = .ok (some (sym_foo, 0xaf)) ∧
      print_address_lookup st.reg 0xfff 7 = .ok none ∧
      __print_address st.reg 0x10060 7 = .ok "10060 <foo+0x10> " ∧
      __print_address st.reg 0x100ff 7 = .ok "100ff <foo+0xaf> " ∧
      __print_address st.reg 0xfff 7 = .ok "fff " :=
  scenario_one env_two vars_zero 0x20000 7 [sym_bar, sym_foo] none qsort_le_sorts
    (by decide) rfl

set_option maxRecDepth 100000 in
theorem reg_both_facts :
    reg_both.wf ∧ table_at reg_both 1 = ⟨1, [sym_baz], 0x7f0000, 0x7f0000⟩ ∧
    print_address_lookup reg_both 0x7f0020 0 = .ok (some (sym_baz, 0)) ∧
    __print_address reg_both 0x7f0020 0 = .ok "7f0020 <baz+0x0> " := by
  decide

/-- C8. End-to-end scenario 2: the map listing has the executable region of
scenario 1 at `0x10000` and then an executable region at `0x7f0000` whose
object holds the single symbol `baz` of value `0x20`, and `qsort` sorts with
`symcmp`. Then the second table has `base_offset` `0x7f0000`, and the address
`0x7f0020` resolves to `baz` with offset 0; `__print_address` appends
`7f0020 <baz+0x0> `. -/
theorem scenario_two (env : libs) (vars0 : locals) (e1 e2 bo0 : Nat)
    (extracted : List asymbol) (dyn dyn2 : Option (List asymbol))
    (hq : qsort_sorts env.qsort) (hx : extracted.Perm [sym_foo, sym_bar])
    (hopen : env.bfd_openr "/bin/prog" TARGET = some ⟨true, true, some extracted, dyn⟩)
    (hopen2 : env.bfd_openr "/lib/baz.so" TARGET = some ⟨true, true, some [sym_baz], dyn2⟩) :
    ∃ st, initialise_mem_map env
        [.all 0x10000 e1 "r-xp" "/bin/prog", .all 0x7f0000 e2 "r-xp" "/lib/baz.so"] vars0
        initial_registry = .ok st ∧
      st.reg.nr_sym_tables = 2 ∧
      table_at st.reg 1 = ⟨1, [sym_baz], 0x7f0000, 0x7f0000⟩ ∧
      (table_at st.reg 1).base_offset = 0x7f0000 ∧
      print_address_lookup st.reg 0x7f0020 bo0 = .ok (some (sym_baz, 0)) ∧
      __print_address st.reg 0x7f0020 bo0 = .ok "7f0020 <baz+0x0> " := by
  have h1 := first_region_registered env vars0 e1 extracted dyn hq hx hopen
  obtain ⟨_, hroom, hlen, hzero, _⟩ := reg_one_facts
  obtain ⟨hwf, ht, ha, hpa⟩ := reg_both_facts
  have hsort : env.qsort symcmp [sym_baz] = [sym_baz] :=
    List.perm_singleton.mp (hq [sym_baz]).1
  have h2 : mem_map_line env
      ⟨false, ⟨0x10000, e1, store_str "r-xp" vars0.perm, store_str "/bin/prog" vars0.library⟩,
        reg_one, [⟨"/bin/prog", 0x10000, 0⟩]⟩ (.all 0x7f0000 e2 "r-xp" "/lib/baz.so") =
      .ok ⟨false,
        ⟨0x7f0000, e2, store_str "r-xp" (store_str "r-xp" vars0.perm),
          store_str "/lib/baz.so" (store_str "/bin/prog" vars0.library)⟩,
        reg_both, [⟨"/bin/prog", 0x10000, 0⟩, ⟨"/lib/baz.so", 0x7f0000, 0x7f0000⟩]⟩ := by
    rw [mem_map_line_exec env _ 0x7f0000 e2 "/lib/baz.so" rfl]
    rw [syminit_open env "/lib/baz.so" 0x7f0000 _ reg_one _ hopen2 rfl hroom hlen]
    rw [hzero]
    rw [build_symtab_static env.qsort true sym_baz [] dyn2 _ _ (by simp [WORD]), hsort]
    rfl
  refine ⟨⟨false,
    ⟨0x7f0000, e2, store_str "r-xp" (store_str "r-xp" vars0.perm),
      store_str "/lib/baz.so" (store_str "/bin/prog" vars0.library)⟩,
    reg_both, [⟨"/bin/prog", 0x10000, 0⟩, ⟨"/lib/baz.so", 0x7f0000, 0x7f0000⟩]⟩,
    ?_, rfl, ht, ?_, ?_, ?_⟩
  · unfold initialise_mem_map
    rw [mem_map_loop, h1]
    simp only []
    rw [mem_map_loop, h2]
    rfl
  · show (table_at reg_both 1).base_offset = _
    rw [ht]
  · show print_address_lookup reg_both 0x7f0020 bo0 = _
    rw [print_address_lookup_indep reg_both _ bo0 0 hwf]
    exact ha
  · show __print_address reg_both 0x7f0020 bo0 = _
    rw [print_address_indep reg_both _ bo0 0 hwf]
    exact hpa

/-- C8 on the file system `env_two` and the listing `lines_two`. -/
theorem scenario_two_witness :
    ∃ st, initialise_mem_map env_two
        [.all 0x10000 0x20000 "r-xp" "/bin/prog", .all 0x7f0000 0x7f1000 "r-xp" "/lib/baz.so"]
        vars_zero initial_registry = .ok st ∧
      st.reg.nr_sym_tables = 2 ∧
      table_at st.reg 1 = ⟨1, [sym_baz], 0x7f0000, 0x7f0000⟩ ∧
      (table_at st.reg 1).base_offset = 0x7f0000 ∧
      print_address_lookup st.reg 0x7f0020 7 = .ok (some (sym_baz, 0)) ∧
      __print_address st.reg 0x7f0020 7 = .ok "7f0020 <baz+0x0> " :=
  scenario_two env_two vars_zero 0x20000 0x7f1000 7 [sym_bar, sym_foo] none none
    qsort_le_sorts (by decide) rfl rfl

/-! ## Lemmas on well-formed map listings -/

theorem takeWhile_append_stop {α : Type} (p : α → Bool) (xs ys : List α) (y : α)
    (hx : ∀ c ∈ xs, p c = true) (hy : p y = false) :
    (xs ++ y :: ys).takeWhile p = xs := by
  induction xs with
  | nil => simp [List.takeWhile, hy]
  | cons x xs ih =>
    have h1 : p x = true := hx x (List.mem_cons_self _ _)
    simp only [List.cons_append, List.takeWhile_cons, h1, if_true, List.cons.injEq, true_and]
    exact ih (fun c hc => hx c (List.mem_cons_of_mem _ hc))

/-- The path name `sscanf` stores is the C string `library` then holds. -/
theorem c_str_store_str (l : String) (buf : List Char)
    (hl : l.data.all (fun c => c != NUL) = true) : c_str (store_str l buf) = l := by
  unfold c_str store_str
  rw [takeWhile_append_stop _ l.data _ NUL (fun c hc => List.all_eq_true.mp hl c hc) (by decide)]

/-- The third byte of `perm` after `sscanf` stored a permission field of at
least two characters: the third character of the field, or the terminating
NUL. -/
theorem store_str_third (p : String) (buf : List Char) (hp : 2 ≤ p.length) :
    ((store_str p buf).getD 2 NUL != 'x') = !(p.data[2]? == some 'x') := by
  unfold store_str
  have hlen : p.length = p.data.length := rfl
  rw [hlen] at hp ⊢
  match hd : p.data, hp with
  | [a, b], _ => simp [NUL]
  | a :: b :: c :: rest, _ => simp [bne]

/-- An iteration of the loop of `initialise_mem_map` on a well-formed line. -/
theorem mem_map_line_wf (env : libs) (st : map_state) (s e : Nat) (p l : String)
    (hwf : well_formed (.all s e p l) = true) :
    mem_map_line env st (.all s e p l) =
      if executable (.all s e p l) = true then
        match syminit env l s (if st.first == true then 0 else s) TARGET st.reg with
        | .error er => .error er
        | .ok reg =>
          .ok ⟨false, ⟨s, e, store_str p st.vars.perm, store_str l st.vars.library⟩, reg,
            st.calls ++ [⟨l, s, if st.first == true then 0 else s⟩]⟩
      else
        .ok { st with
          vars := ⟨s, e, store_str p st.vars.perm, store_str l st.vars.library⟩ } := by
  simp only [well_formed, Bool.and_eq_true, decide_eq_true_eq] at hwf
  obtain ⟨hp, hl⟩ := hwf
  unfold mem_map_line
  simp only [sscanf_line, executable]
  rw [store_str_third p st.vars.perm hp, c_str_store_str l st.vars.library hl]
  by_cases hx : (p.data[2]? == some 'x') = true
  · simp only [hx, Bool.not_true, Bool.false_eq_true, if_false, if_true]
  · simp only [hx, Bool.not_false, Bool.not_eq_true, if_true, Bool.false_eq_true, if_false]

/-- What an iteration on a well-formed line adds to the log of calls: the
path name and the start address of the line when the line is executable, and
nothing otherwise. -/
theorem mem_map_line_calls (env : libs) (st st1 : map_state) (line : scanned)
    (hwf : well_formed line = true) (h : mem_map_line env st line = .ok st1) :
    st1.calls.map (fun c => (c.file, c.base_address)) =
      st.calls.map (fun c => (c.file, c.base_address)) ++
        ([line].filter executable).map region_of := by
  match line, hwf with
  | .all s e p l, hwf =>
    rw [mem_map_line_wf env st s e p l hwf] at h
    cases hx : executable (.all s e p l) with
    | true =>
      rw [hx] at h
      simp only [if_true] at h
      cases hs : syminit env l s (if (st.first == true) = true then 0 else s) TARGET st.reg with
      | error er => rw [hs] at h; cases h
      | ok reg =>
        rw [hs] at h
        cases h
        simp [List.filter, hx, region_of]
    | false =>
      rw [hx] at h
      simp only [Bool.false_eq_true, if_false] at h
      cases h
      simp [List.filter, hx]

/-- The calls of a run of the loop over well-formed lines. -/
theorem mem_map_loop_calls (env : libs) :
    ∀ (lines : List scanned) (st st1 : map_state),
      (∀ line ∈ lines, well_formed line = true) → mem_map_loop env lines st = .ok st1 →
      st1.calls.map (fun c => (c.file, c.base_address)) =
        st.calls.map (fun c => (c.file, c.base_address)) ++
          (lines.filter executable).map region_of := by
  intro lines
  induction lines with
  | nil =>
    intro st st1 _ h
    rw [mem_map_loop] at h
    cases h
    simp
  | cons line rest ih =>
    intro st st1 hwf h
    rw [mem_map_loop] at h
    cases he : mem_map_line env st line with
    | error er => rw [he] at h; cases h
    | ok st2 =>
      rw [he] at h
      have h1 := mem_map_line_calls env st st2 line (hwf line (List.mem_cons_self _ _)) he
      have h2 := ih st2 st1 (fun x hx => hwf x (List.mem_cons_of_mem _ hx)) h
      rw [h2, h1, List.append_assoc, ← List.map_append, ← List.filter_append]
      rfl

/-- An iteration on a well-formed line stays inside the array when the
objects are readable and, for an executable line, an entry is free. -/
theorem mem_map_line_wf_total (env : libs) (st : map_state) (line : scanned)
    (hwf : well_formed line = true) (hread : env.readable)
    (hlen : st.reg.sym_tables.length < WORD)
    (hroom : executable line = true → st.reg.nr_sym_tables < st.reg.sym_tables.length) :
    ∃ st1, mem_map_line env st line = .ok st1 ∧
      st1.reg.sym_tables.length = st.reg.sym_tables.length ∧
      st1.reg.nr_sym_tables ≤
        st.reg.nr_sym_tables + (if executable line = true then 1 else 0) := by
  match line, hwf, hroom with
  | .all s e p l, hwf, hroom =>
    rw [mem_map_line_wf env st s e p l hwf]
    cases hx : executable (.all s e p l) with
    | false => exact ⟨_, rfl, rfl, by simp⟩
    | true =>
      simp only [if_true]
      cases hop : opens env ⟨l, s, if (st.first == true) = true then 0 else s⟩ with
      | false =>
        rw [syminit_closed env _ _ _ st.reg hop]
        exact ⟨_, rfl, rfl, by simp⟩
      | true =>
        obtain ⟨abfd, hopen, hobj⟩ := (opens_iff env _).mp hop
        rw [syminit_open env _ _ _ st.reg abfd hopen hobj (hroom hx) hlen]
        obtain ⟨r, hr⟩ := build_symtab_readable env.qsort abfd
          (table_at st.reg st.reg.nr_sym_tables).syms
          (table_at st.reg st.reg.nr_sym_tables).symcount (hread _ abfd hopen)
        rw [hr]
        exact ⟨_, rfl, by simp, by simp⟩

/-- The loop over well-formed lines stays inside the array when the objects
are readable and the array has a free entry for every executable line. -/
theorem mem_map_loop_wf_total (env : libs) (hread : env.readable) :
    ∀ (lines : List scanned) (st : map_state),
      (∀ line ∈ lines, well_formed line = true) →
      st.reg.sym_tables.length < WORD →
      st.reg.nr_sym_tables + (lines.filter executable).length ≤ st.reg.sym_tables.length →
      ∃ st1, mem_map_loop env lines st = .ok st1 := by
  intro lines
  induction lines with
  | nil => intro st _ _ _; exact ⟨st, rfl⟩
  | cons line rest ih =>
    intro st hwf hlen hroom
    have hcount : (List.filter executable (line :: rest)).length =
        (if executable line = true then 1 else 0) + (List.filter executable rest).length := by
      cases hx : executable line with
      | true => simp [List.filter, hx]; omega
      | false => simp [List.filter, hx]
    rw [hcount] at hroom
    obtain ⟨st1, he1, hl1, hn1⟩ := mem_map_line_wf_total env st line
      (hwf line (List.mem_cons_self _ _)) hread hlen
      (fun hx => by rw [hx] at hroom; simp only [if_true] at hroom; omega)
    obtain ⟨st2, he2⟩ := ih st1 (fun x hx => hwf x (List.mem_cons_of_mem _ hx)) (by omega)
      (by omega)
    refine ⟨st2, ?_⟩
    rw [mem_map_loop, he1]
    exact he2

/-- C11. Executable filter: for a map listing of well-formed lines, a run of
`initialise_mem_map` from the initial registry ends without a fault when the
objects are readable and at most `MAX_SYMS` lines are executable, and in every
run that ends without a fault the calls of `syminit` are, in listing order,
those for the path name and the start address of the lines whose permission
field has `x` as its third character, and no other call is made. -/
theorem executable_filter (env : libs) (lines : List scanned) (vars0 : locals)
    (hwf : ∀ line ∈ lines, well_formed line = true) :
    ((lines.filter executable).length ≤ MAX_SYMS → env.readable →
      ∃ st, initialise_mem_map env lines vars0 initial_registry = .ok st) ∧
    (∀ st, initialise_mem_map env lines vars0 initial_registry = .ok st →
      st.calls.map (fun c => (c.file, c.base_address)) =
        (lines.filter executable).map region_of) := by
  have hlen0 : initial_registry.sym_tables.length = MAX_SYMS := by
    simp [initial_registry]
  refine ⟨fun hcap hread => ?_, fun st he => ?_⟩
  · exact mem_map_loop_wf_total env hread lines ⟨true, vars0, initial_registry, []⟩ hwf
      (by simp only [hlen0]; decide)
      (by simp only [hlen0]; simp only [initial_registry]; omega)
  · have h := mem_map_loop_calls env lines ⟨true, vars0, initial_registry, []⟩ st hwf he
    simpa using h
/-- C11 on the listing `lines_mixed`: the calls are those of its first and
third line. -/
theorem executable_filter_witness :
    ∃ st, initialise_mem_map env_two lines_mixed vars_zero initial_registry = .ok st ∧
      st.calls.map (fun c => (c.file, c.base_address)) =
        [("/bin/prog", 0x10000), ("/lib/baz.so", 0x7f0000)] :=
  have h := executable_filter env_two lines_mixed vars_zero (by decide)
  match h.1 (by decide) env_two_readable with
  | ⟨st, he⟩ => ⟨st, he, h.2 st he⟩

/-! ## Soft failure, fallback, frame -/

/-- C12. Per-object soft failure: when the file does not open (`bfd_openr`
returns `NULL`) or is not a recognised object (`bfd_check_format` fails),
`syminit` returns with `nr_sym_tables` and all entries of `sym_tables` as they
were. -/
theorem syminit_soft_failure (env : libs) (file target : String) (ba bo : Nat)
    (reg : registry)
    (h : env.bfd_openr file target = none ∨
      ∃ abfd, env.bfd_openr file target = some abfd ∧ abfd.is_object = false) :
    syminit env file ba bo target reg = .ok reg := by
  unfold syminit
  rcases h with h | ⟨abfd, h, hobj⟩
  · rw [h]
  · rw [h]
    simp [hobj]

/-- C12 on a file that does not exist and on a text file. -/
theorem syminit_soft_failure_witness :
    syminit env_two "/lib/none.so" 0x10000 0 TARGET reg_two = .ok reg_two ∧
    syminit env_text "/etc/motd" 0x10000 0 TARGET reg_two = .ok reg_two :=
  ⟨syminit_soft_failure env_two "/lib/none.so" TARGET 0x10000 0 reg_two (Or.inl rfl),
    syminit_soft_failure env_text "/etc/motd" TARGET 0x10000 0 reg_two
      (Or.inr ⟨⟨false, true, some [sym_foo], none⟩, rfl, rfl⟩)⟩

/-- C13. No fallback: in `reg_overlap` the address `0x10090` chooses the table
at `0x10080`, whose range check fails, and `symfind` returns `NULL` although
the table at `0x10000` holds the key between `foo` and `bar`, where the search
would return `foo`. In general the result of `symfind` is fixed by the chosen
table alone: two registries that choose equal tables for an address give the
same result. -/
theorem symfind_no_fallback :
    (selects reg_overlap 0x10090 1 ∧
      (table_at reg_overlap 0).base_address < (table_at reg_overlap 1).base_address ∧
      symfind_table (table_at reg_overlap 0) 0x10090 = .ok (some sym_foo, 0) ∧
      symfind_table (table_at reg_overlap 1) 0x10090 = .ok (none, 0x10080) ∧
      ∀ bo0, symfind reg_overlap 0x10090 bo0 = .ok (none, 0x10080)) ∧
    (∀ (reg reg1 : registry) (addr bo0 bo1 k k1 : Nat), reg.wf → reg1.wf →
      selects reg addr k → selects reg1 addr k1 → table_at reg k = table_at reg1 k1 →
      symfind reg addr bo0 = symfind reg1 addr bo1) := by
  refine ⟨⟨by decide, by decide, by decide, by decide, fun bo0 => ?_⟩, ?_⟩
  · rw [symfind_of_selects reg_overlap 0x10090 bo0 1 (by decide) (by decide)]
    decide
  · intro reg reg1 addr bo0 bo1 k k1 hwf hwf1 hk hk1 heq
    rw [symfind_of_selects reg addr bo0 k hwf hk, symfind_of_selects reg1 addr bo1 k1 hwf1 hk1,
      heq]

/-- C13 on `reg_overlap` and the registry that holds its second table
alone. -/
theorem symfind_no_fallback_witness :
    symfind reg_overlap 0x10090 7 =
      symfind ⟨[⟨1, [sym_baz], 0x10080, 0x10080⟩], 1⟩ 0x10090 9 :=
  symfind_no_fallback.2 reg_overlap ⟨[⟨1, [sym_baz], 0x10080, 0x10080⟩], 1⟩ 0x10090 7 9 1 0
    (by decide) (by decide) (by decide) (by decide) (by decide)

/-! ## The printed text -/

theorem digitChar_hex (m : Nat) (h : m < 16) :
    lower_hex_digit (Nat.digitChar m) = true ∧ hex_digit_value (Nat.digitChar m) = m ∧
      (Nat.digitChar m = '0' → m = 0) := by
  interval_cases m <;> decide

theorem hex_value_snoc (cs : List Char) (c : Char) :
    hex_value (cs ++ [c]) = hex_value cs * 16 + hex_digit_value c := by
  simp [hex_value, List.foldl_append]

/-- The digits `Nat.toDigitsCore` puts in front of its accumulator at base 16,
with enough fuel: a non-empty run of lowercase hexadecimal digits that denotes
the number and starts with `0` only for the number 0. -/
theorem toDigitsCore_hex :
    ∀ (fuel n : Nat) (tail : List Char), n < fuel →
      ∃ run, Nat.toDigitsCore 16 fuel n tail = run ++ tail ∧ run ≠ [] ∧
        (∀ c ∈ run, lower_hex_digit c = true) ∧ hex_value run = n ∧
        (run.head? = some '0' → n = 0) := by
  intro fuel
  induction fuel with
  | zero => intro n tail hlt; omega
  | succ k hk =>
    intro n tail hlt
    obtain ⟨hd1, hd2, hd3⟩ := digitChar_hex (n % 16) (Nat.mod_lt _ (by decide))
    rw [Nat.toDigitsCore]
    by_cases hq : n / 16 = 0
    · have hsmall : n < 16 := by omega
      simp only [hq, if_true]
      refine ⟨[Nat.digitChar (n % 16)], rfl, List.cons_ne_nil _ _, fun c hc => ?_, ?_,
        fun h => ?_⟩
      · rw [List.mem_singleton.mp hc]; exact hd1
      · show 0 * 16 + hex_digit_value (Nat.digitChar (n % 16)) = n
        rw [hd2]
        omega
      · simp only [List.head?_cons, Option.some.injEq] at h
        have := hd3 h
        omega
    · simp only [hq, if_false]
      obtain ⟨run, he, hne, hall, hval, hz⟩ :=
        hk (n / 16) (Nat.digitChar (n % 16) :: tail) (by omega)
      refine ⟨run ++ [Nat.digitChar (n % 16)], by rw [he]; simp, by simp, fun c hc => ?_, ?_,
        fun h => ?_⟩
      · rcases List.mem_append.mp hc with h | h
        · exact hall c h
        · rw [List.mem_singleton.mp h]; exact hd1
      · rw [hex_value_snoc, hval, hd2]
        omega
      · cases run with
        | nil => exact absurd rfl hne
        | cons d rest =>
          simp only [List.cons_append, List.head?_cons, Option.some.injEq] at h
          exact absurd (hz (by simp [h])) hq

/-- The conversion `%lx` as modelled by `hex`: a non-empty run of lowercase
hexadecimal digits that denotes the number, without leading zero. -/
theorem hex_spec (n : Nat) :
    (hex n).data ≠ [] ∧ (∀ c ∈ (hex n).data, lower_hex_digit c = true) ∧
      hex_value (hex n).data = n ∧ ((hex n).data.head? = some '0' → n = 0) := by
  obtain ⟨ds, he, hne, hall, hval, hz⟩ := toDigitsCore_hex (n + 1) n [] (Nat.lt_succ_self n)
  have hd : (hex n).data = ds := by
    simp only [hex, Nat.toDigits]
    rw [he, List.append_nil]
  rw [hd]
  exact ⟨hne, hall, hval, hz⟩

/-- C14. Address formatting: when `symfind` returns `NULL`, `__print_address`
appends the hexadecimal digits of `vma` and one space; when `symfind` returns a
symbol, it appends the digits of `vma`, a space, `<`, the name of the symbol,
`+0x`, the hexadecimal digits of `(vma - base_offset) - value`, `>` and a
space. The digits of a number are lowercase hexadecimal digits (so there is
no `0x` in front), denote the number, and have no leading zero. -/
theorem print_address_format (reg : registry) (vma bo0 : Nat) :
    (∀ b, symfind reg vma bo0 = .ok (none, b) →
      __print_address reg vma bo0 = .ok (hex vma ++ " ")) ∧
    (∀ s b, symfind reg vma bo0 = .ok (some s, b) →
      __print_address reg vma bo0 =
        .ok (hex vma ++ " <" ++ bfd_asymbol_name s ++ "+0x" ++
          hex (sub64 (sub64 vma b) (bfd_asymbol_value s)) ++ "> ")) ∧
    (∀ n, (hex n).data ≠ [] ∧ (∀ c ∈ (hex n).data, lower_hex_digit c = true) ∧
      hex_value (hex n).data = n ∧ ((hex n).data.head? = some '0' → n = 0)) := by
  refine ⟨fun b h => ?_, fun s b h => ?_, hex_spec⟩
  · unfold __print_address print_address_lookup
    rw [h]
  · unfold __print_address print_address_lookup
    rw [h]

/-- C14 on `reg_two`: the text for `0x10060`, which `symfind` resolves to
`foo`, and for `0xfff`, for which it returns `NULL`. -/
theorem print_address_format_witness :
    __print_address reg_two 0x10060 7 = .ok "10060 <foo+0x10> " ∧
    __print_address reg_two 0xfff 7 = .ok "fff " :=
  ⟨(print_address_format reg_two 0x10060 7).2.1 ⟨"foo", 0x10050⟩ 0 (by decide),
    (print_address_format reg_two 0xfff 7).1 7 (by decide)⟩

/-- The caller's variable enters the result of `symfind` only when no table
is found, where it is handed back as it was. -/
theorem symfind_indep (reg : registry) (addr bo0 bo1 : Nat) :
    symfind reg addr bo0 = symfind reg addr bo1 ∨
    (symfind reg addr bo0 = .ok (none, bo0) ∧ symfind reg addr bo1 = .ok (none, bo1)) := by
  unfold symfind
  cases symfind_scan reg.sym_tables addr reg.nr_sym_tables 0 false 0 with
  | error e => left; rfl
  | ok r =>
    obtain ⟨found, nearest⟩ := r
    cases found with
    | false => right; exact ⟨rfl, rfl⟩
    | true => left; rfl

/-- C15. Read-only, idempotent resolution: `symfind` has the two globals as
arguments only (its source assigns neither `nr_sym_tables` nor an entry of
`sym_tables`), so a second call sees the registry of the first. A second call
for the same address, entered with the variable `base_offset` as the first
call left it, returns the same pointer and the same `base_offset`, and faults
if the first did; whatever the variable holds at entry, the pointer returned
is the same, and so are the offset and the text of `__print_address`. -/
theorem symfind_idempotent (reg : registry) (addr bo0 : Nat) :
    (∀ r b, symfind reg addr bo0 = .ok (r, b) → symfind reg addr b = .ok (r, b)) ∧
    (∀ e, symfind reg addr bo0 = .error e → ∀ b, symfind reg addr b = .error e) ∧
    (∀ bo1, Except.map Prod.fst (symfind reg addr bo0) =
      Except.map Prod.fst (symfind reg addr bo1)) ∧
    (∀ bo1 s b, symfind reg addr bo0 = .ok (some s, b) →
      symfind reg addr bo1 = .ok (some s, b)) ∧
    (∀ bo1, print_address_lookup reg addr bo0 = print_address_lookup reg addr bo1) ∧
    (∀ bo1, __print_address reg addr bo0 = __print_address reg addr bo1) := by
  have hlk : ∀ bo1, print_address_lookup reg addr bo0 = print_address_lookup reg addr bo1 := by
    intro bo1
    unfold print_address_lookup
    rcases symfind_indep reg addr bo0 bo1 with h | ⟨h0, h1⟩
    · rw [h]
    · rw [h0, h1]
  refine ⟨fun r b h => ?_, fun e h b => ?_, fun bo1 => ?_, fun bo1 s b h => ?_, hlk,
    fun bo1 => ?_⟩
  · rcases symfind_indep reg addr bo0 b with h1 | ⟨h0, _⟩
    · rw [← h1, h]
    · rw [h0] at h
      cases h
      exact h0
  · rcases symfind_indep reg addr bo0 b with h1 | ⟨h0, _⟩
    · rw [← h1, h]
    · rw [h0] at h
      cases h
  · rcases symfind_indep reg addr bo0 bo1 with h | ⟨h0, h1⟩
    · rw [h]
    · rw [h0, h1]
      rfl
  · rcases symfind_indep reg addr bo0 bo1 with h1 | ⟨h0, _⟩
    · rw [← h1, h]
    · rw [h0] at h
      cases h
  · unfold __print_address
    rw [hlk bo1]

/-- C15 on `reg_two`: the address `0x10060` resolved twice. -/
theorem symfind_idempotent_witness :
    symfind reg_two 0x10060 7 = .ok (some ⟨"foo", 0x10050⟩, 0) ∧
    symfind reg_two 0x10060 0 = .ok (some ⟨"foo", 0x10050⟩, 0) :=
  ⟨by decide, (symfind_idempotent reg_two 0x10060 7).1 (some ⟨"foo", 0x10050⟩) 0 (by decide)⟩

/-- C18. The comparator `symcmp` is not a three-way ordering: it is 1 when the
first value is above the second and 0 otherwise, so it is 0, not negative,
when the first value is below the second, and the two orders of a pair with
different values give 0 and 1, not opposite signs. -/
theorem symcmp_zero_or_one :
    symcmp sym_foo sym_bar = 0 ∧ symcmp sym_bar sym_foo = 1 ∧
    (∀ a b, 0 ≤ symcmp a b) ∧
    (∀ a b, bfd_asymbol_value a < bfd_asymbol_value b → symcmp a b = 0 ∧ symcmp b a = 1) ∧
    (∀ a b, bfd_asymbol_value a = bfd_asymbol_value b → symcmp a b = 0) ∧
    (∀ a b, bfd_asymbol_value a > bfd_asymbol_value b → symcmp a b = 1) := by
  refine ⟨by decide, by decide, fun a b => ?_, fun a b h => ?_, fun a b h => ?_,
    fun a b h => ?_⟩
  · have := symcmp_nonneg a b
    omega
  · unfold symcmp
    rw [if_neg (by omega), if_pos h]
    exact ⟨rfl, rfl⟩
  · unfold symcmp
    rw [if_neg (by omega)]
  · unfold symcmp
    rw [if_pos h]

/-! ## Monotonic table selection -/

/-- The scan is the first part of `symfind`. -/
theorem symfind_eq_nearest (reg : registry) (addr bo0 : Nat) :
    symfind reg addr bo0 =
      match symfind_nearest reg addr with
      | .error e => .error e
      | .ok none => .ok (none, bo0)
      | .ok (some t) => symfind_table t addr := by
  unfold symfind symfind_nearest
  cases symfind_scan reg.sym_tables addr reg.nr_sym_tables 0 false 0 with
  | error e => rfl
  | ok r =>
    obtain ⟨found, nearest⟩ := r
    cases found with
    | false => rfl
    | true =>
      simp only [Bool.not_true, Bool.false_eq_true, if_false]
      cases read reg.sym_tables nearest with
      | error e => rfl
      | ok t => rfl

/-- Outcome of the scan: nothing when no registered table lies at or below
the address, and otherwise the table chosen for the address. -/
theorem symfind_nearest_cases (reg : registry) (addr : Nat) (hwf : reg.wf) :
    ((∀ j, j < reg.nr_sym_tables → ¬ (table_at reg j).base_address ≤ addr) ∧
      symfind_nearest reg addr = .ok none) ∨
    (∃ k, selects reg addr k ∧ symfind_nearest reg addr = .ok (some (table_at reg k))) := by
  have hinv0 : scan_inv reg.sym_tables addr 0 false 0 :=
    ⟨fun _ j hj => absurd hj (Nat.not_lt_zero j), fun hf => by simp at hf⟩
  obtain ⟨f1, n1, he, hinv⟩ :=
    symfind_scan_spec reg.sym_tables addr reg.nr_sym_tables 0 false 0
      (by simpa using hwf) hinv0
  rw [Nat.zero_add] at hinv
  unfold symfind_nearest
  rw [he]
  cases f1 with
  | false =>
    left
    exact ⟨fun j hj => hinv.1 rfl j hj, by simp⟩
  | true =>
    right
    obtain ⟨h1, h2, h3⟩ := hinv.2 rfl
    refine ⟨n1, ⟨h1, h2, h3⟩, ?_⟩
    have hlt : n1 < reg.sym_tables.length := lt_of_lt_of_le h1 hwf
    simp only [Bool.not_true, Bool.false_eq_true, if_false]
    rw [read_of_lt reg.sym_tables n1 zero_table hlt]
    rfl

/-- When every table at or below `a1` in one registry has a table at or below
`a2` in a second registry whose `base_address` is at least as large, the table
chosen for `a2` in the second registry has a `base_address` at least as large
as the one chosen for `a1` in the first. -/
theorem symfind_nearest_le (reg reg1 : registry) (a1 a2 : Nat) (hwf : reg.wf)
    (hwf1 : reg1.wf)
    (hdom : ∀ j, j < reg.nr_sym_tables → (table_at reg j).base_address ≤ a1 →
      ∃ j1, j1 < reg1.nr_sym_tables ∧ (table_at reg1 j1).base_address ≤ a2 ∧
        (table_at reg j).base_address ≤ (table_at reg1 j1).base_address)
    (t : sym_table) (h : symfind_nearest reg a1 = .ok (some t)) :
    ∃ t1, symfind_nearest reg1 a2 = .ok (some t1) ∧ t.base_address ≤ t1.base_address := by
  rcases symfind_nearest_cases reg a1 hwf with ⟨_, he⟩ | ⟨k, hk, he⟩
  · rw [he] at h; cases h
  · rw [he] at h
    cases h
    obtain ⟨j1, hj1, hle1, hge⟩ := hdom k hk.1 hk.2.1
    rcases symfind_nearest_cases reg1 a2 hwf1 with ⟨hno, _⟩ | ⟨k1, hk1, he1⟩
    · exact absurd hle1 (hno j1 hj1)
    · exact ⟨_, he1, le_trans hge (hk1.2.2 j1 hj1 hle1).1⟩

theorem table_at_set (reg : registry) (j i n : Nat) (t : sym_table)
    (hj : j < reg.sym_tables.length) :
    table_at ⟨reg.sym_tables.set j t, n⟩ i = if i = j then t else table_at reg i := by
  unfold table_at
  simp only [List.getD_eq_getElem?_getD, List.getElem?_set]
  by_cases h : j = i
  · subst h; simp [hj]
  · have h1 : ¬ i = j := fun e => h e.symm
    simp [h, h1]

/-- C16. Monotonic table selection, for a registry whose registered tables lie
in the array and an address `addr`. The scan of `symfind` chooses the entry
`symfind_nearest`. When every registered table lies at or below `addr`, the
chosen table is a registered table whose `base_address` is the largest of
the registry. Raising the `base_address` of a table to a value still at or
below `addr`, adding a table, or raising the address to `a2` never yields a
chosen table with a smaller `base_address`, and a table is still chosen. -/
theorem selection_monotonic (reg : registry) (addr : Nat) (hwf : reg.wf) :
    (∀ bo0, symfind reg addr bo0 =
      match symfind_nearest reg addr with
      | .error e => .error e
      | .ok none => .ok (none, bo0)
      | .ok (some t) => symfind_table t addr) ∧
    (0 < reg.nr_sym_tables →
      (∀ j, j < reg.nr_sym_tables → (table_at reg j).base_address ≤ addr) →
      ∃ k, k < reg.nr_sym_tables ∧ symfind_nearest reg addr = .ok (some (table_at reg k)) ∧
        ∀ j, j < reg.nr_sym_tables →
          (table_at reg j).base_address ≤ (table_at reg k).base_address) ∧
    (∀ j b t, j < reg.nr_sym_tables → (table_at reg j).base_address ≤ b → b ≤ addr →
      symfind_nearest reg addr = .ok (some t) →
      ∃ t1, symfind_nearest (set_base reg j b) addr = .ok (some t1) ∧
        t.base_address ≤ t1.base_address) ∧
    (∀ tn t, reg.nr_sym_tables < reg.sym_tables.length →
      symfind_nearest reg addr = .ok (some t) →
      ∃ t1, symfind_nearest (add_table reg tn) addr = .ok (some t1) ∧
        t.base_address ≤ t1.base_address) ∧
    (∀ a2 t, addr ≤ a2 → symfind_nearest reg addr = .ok (some t) →
      ∃ t1, symfind_nearest reg a2 = .ok (some t1) ∧
        t.base_address ≤ t1.base_address) := by
  refine ⟨fun bo0 => symfind_eq_nearest reg addr bo0, fun hpos hall => ?_,
    fun j b t hj hb hba h => ?_, fun tn t hroom h => ?_, fun a2 t ha h => ?_⟩
  · rcases symfind_nearest_cases reg addr hwf with ⟨hno, _⟩ | ⟨k, hk, he⟩
    · exact absurd (hall 0 hpos) (hno 0 hpos)
    · exact ⟨k, hk.1, he, fun j hj => (hk.2.2 j hj (hall j hj)).1⟩
  · have hjl : j < reg.sym_tables.length := lt_of_lt_of_le hj hwf
    have hwf1 : (set_base reg j b).wf := by
      unfold registry.wf set_base
      simp only [List.length_set]
      exact hwf
    refine symfind_nearest_le reg (set_base reg j b) addr addr hwf hwf1 (fun i hi hle => ?_) t h
    refine ⟨i, hi, ?_⟩
    unfold set_base
    rw [table_at_set reg j i _ _ hjl]
    by_cases hij : i = j
    · subst hij
      simp only [if_true]
      exact ⟨hba, hb⟩
    · simp only [hij, if_false]
      exact ⟨hle, le_refl _⟩
  · have hwf1 : (add_table reg tn).wf := by
      unfold registry.wf add_table
      simp only [List.length_set]
      exact hroom
    refine symfind_nearest_le reg (add_table reg tn) addr addr hwf hwf1 (fun i hi hle => ?_) t h
    refine ⟨i, Nat.lt_succ_of_lt hi, ?_⟩
    unfold add_table
    rw [table_at_set reg reg.nr_sym_tables i _ _ hroom]
    simp only [Nat.ne_of_lt hi, if_false]
    exact ⟨hle, le_refl _⟩
  · exact symfind_nearest_le reg reg addr a2 hwf hwf
      (fun i hi hle => ⟨i, hi, le_trans hle ha, le_refl _⟩) t h

/-- C16 on `reg_overlap` at the address `0x10090`, above both tables: the
table at `0x10080` is chosen, and it stays chosen for the address `0x20000`. -/
theorem selection_monotonic_witness :
    (∃ k, k < reg_overlap.nr_sym_tables ∧
      symfind_nearest reg_overlap 0x10090 = .ok (some (table_at reg_overlap k)) ∧
      ∀ j, j < reg_overlap.nr_sym_tables →
        (table_at reg_overlap j).base_address ≤ (table_at reg_overlap k).base_address) ∧
    (∃ t1, symfind_nearest reg_overlap 0x20000 = .ok (some t1) ∧
      (table_at reg_overlap 1).base_address ≤ t1.base_address) :=
  ⟨(selection_monotonic reg_overlap 0x10090 (by decide)).2.1 (by decide) (by decide),
    (selection_monotonic reg_overlap 0x10090 (by decide)).2.2.2.2 0x20000
      (table_at reg_overlap 1) (by decide) (by decide)⟩
/-! ## Termination and bounds of the binary search -/

/-- The loop of `symfind` iterates `symfind_iter`. -/
theorem symfind_loop_succ (syms : List asymbol) (addr fuel left right : Nat) :
    symfind_loop syms addr (fuel + 1) left right =
      match symfind_iter syms addr left right with
      | .error e => .error e
      | .ok (.again l r) => symfind_loop syms addr fuel l r
      | .ok (.exit l) => .ok l := by
  rw [symfind_loop]
  unfold symfind_iter
  by_cases hc : (left + 1) % WORD < right
  · simp only [hc, if_true]
    cases read syms ((right + left) % WORD / 2) with
    | error e => rfl
    | ok sym =>
      simp only []
      by_cases h1 : bfd_asymbol_value sym > addr
      · simp only [h1, if_true]
      · by_cases h2 : bfd_asymbol_value sym < addr
        · simp only [h1, h2, if_true, if_false]
        · simp only [h1, h2, if_false]
  · simp only [hc, if_false]

/-- One iteration from a state `left < right <= length` of a table of fewer
than `2 ^ 63` entries: the sums do not wrap, and either the condition fails
(`right <= left + 1`), or `middle` lies strictly between `left` and `right`,
is read inside the table, and replaces `right` or `left` or ends the loop on
an exact match. -/
theorem symfind_iter_spec (syms : List asymbol) (addr left right : Nat)
    (hlen : syms.length < 2 ^ 63) (hlr : left < right) (hr : right ≤ syms.length) :
    (left + 1) % WORD = left + 1 ∧ (right + left) % WORD = right + left ∧
    right + left < WORD ∧
    ((right ≤ left + 1 ∧ symfind_iter syms addr left right = .ok (.exit left)) ∨
      (left + 1 < right ∧ left < (right + left) / 2 ∧ (right + left) / 2 < right ∧
        (right + left) / 2 < syms.length ∧
        read syms ((right + left) / 2) = .ok (syms.getD ((right + left) / 2) ⟨"", 0⟩) ∧
        ((value_at syms ((right + left) / 2) > addr ∧
            symfind_iter syms addr left right = .ok (.again left ((right + left) / 2))) ∨
          (value_at syms ((right + left) / 2) < addr ∧
            symfind_iter syms addr left right = .ok (.again ((right + left) / 2) right)) ∨
          (value_at syms ((right + left) / 2) = addr ∧
            symfind_iter syms addr left right = .ok (.exit ((right + left) / 2)))))) := by
  have hW : WORD = 2 ^ 64 := rfl
  have hw1 : (left + 1) % WORD = left + 1 := Nat.mod_eq_of_lt (by omega)
  have hw2 : (right + left) % WORD = right + left := Nat.mod_eq_of_lt (by omega)
  refine ⟨hw1, hw2, by omega, ?_⟩
  unfold symfind_iter
  rw [hw1, hw2]
  by_cases hc : left + 1 < right
  · right
    have hm : (right + left) / 2 < syms.length := by omega
    have hread := read_of_lt syms ((right + left) / 2) ⟨"", 0⟩ hm
    refine ⟨hc, by omega, by omega, hm, hread, ?_⟩
    simp only [hc, if_true, hread]
    unfold value_at
    by_cases h1 : bfd_asymbol_value (syms.getD ((right + left) / 2) ⟨"", 0⟩) > addr
    · left
      exact ⟨h1, by simp only [h1, if_true]⟩
    · by_cases h2 : bfd_asymbol_value (syms.getD ((right + left) / 2) ⟨"", 0⟩) < addr
      · right; left
        exact ⟨h2, by simp only [h1, h2, if_true, if_false]⟩
      · right; right
        exact ⟨by omega, by simp only [h1, h2, if_false]⟩
  · left
    exact ⟨by omega, by simp only [hc, if_false]⟩

/-- From a state whose condition fails the loop ends at once with `left`. -/
theorem symfind_loop_exit (syms : List asymbol) (addr left right : Nat)
    (hlen : syms.length < 2 ^ 63) (hlr : left < right) (hr : right ≤ syms.length)
    (hc : right ≤ left + 1) :
    ∀ fuel, symfind_loop syms addr fuel left right = .ok left := by
  have hW : WORD = 2 ^ 64 := rfl
  have hw1 : (left + 1) % WORD = left + 1 := Nat.mod_eq_of_lt (by omega)
  intro fuel
  cases fuel with
  | zero => rw [symfind_loop, hw1, if_neg (by omega)]
  | succ f => rw [symfind_loop, hw1, if_neg (by omega)]

/-- The loop of `symfind` from a state `left < right <= length`: with fuel
for `right - left - 1` iterations or more it ends, with the same `left` for
every such fuel, and that `left` lies between the initial `left` and
`right`. Neither the order of the table nor the key matters. -/
theorem symfind_loop_total (syms : List asymbol) (addr : Nat)
    (hlen : syms.length < 2 ^ 63) :
    ∀ (fuel left right : Nat), left < right → right ≤ syms.length →
      right - left ≤ fuel + 1 →
      ∃ x, left ≤ x ∧ x < right ∧
        ∀ fuel1, fuel ≤ fuel1 → symfind_loop syms addr fuel1 left right = .ok x := by
  intro fuel
  induction fuel with
  | zero =>
    intro left right hlr hr hf
    exact ⟨left, le_refl _, hlr, fun fuel1 _ =>
      symfind_loop_exit syms addr left right hlen hlr hr (by omega) fuel1⟩
  | succ fuel ih =>
    intro left right hlr hr hf
    obtain ⟨_, _, _, hcases⟩ := symfind_iter_spec syms addr left right hlen hlr hr
    rcases hcases with ⟨hc, _⟩ | ⟨hc, hm1, hm2, _, _, hnext⟩
    · exact ⟨left, le_refl _, hlr, fun fuel1 _ =>
        symfind_loop_exit syms addr left right hlen hlr hr hc fuel1⟩
    · rcases hnext with ⟨_, he⟩ | ⟨_, he⟩ | ⟨_, he⟩
      · obtain ⟨x, hx1, hx2, hall⟩ := ih left ((right + left) / 2) hm1 (by omega) (by omega)
        refine ⟨x, hx1, by omega, fun fuel1 hf1 => ?_⟩
        obtain ⟨f, rfl⟩ : ∃ f, fuel1 = f + 1 := ⟨fuel1 - 1, by omega⟩
        rw [symfind_loop_succ, he]
        exact hall f (by omega)
      · obtain ⟨x, hx1, hx2, hall⟩ := ih ((right + left) / 2) right hm2 hr (by omega)
        refine ⟨x, by omega, hx2, fun fuel1 hf1 => ?_⟩
        obtain ⟨f, rfl⟩ : ∃ f, fuel1 = f + 1 := ⟨fuel1 - 1, by omega⟩
        rw [symfind_loop_succ, he]
        exact hall f (by omega)
      · refine ⟨(right + left) / 2, by omega, hm2, fun fuel1 hf1 => ?_⟩
        obtain ⟨f, rfl⟩ : ∃ f, fuel1 = f + 1 := ⟨fuel1 - 1, by omega⟩
        rw [symfind_loop_succ, he]

/-- After the range check `symfind` returns the symbol at the index its loop
ends with. -/
theorem symfind_table_of_loop (t : sym_table) (addr l : Nat) (hwf : t.wf)
    (hc : 1 ≤ t.symcount) (h0 : value_at t.syms 0 ≤ lookup_key t addr)
    (h1 : lookup_key t addr ≤ value_at t.syms (t.syms.length - 1))
    (hl : l < t.syms.length)
    (he : symfind_loop t.syms (lookup_key t addr) t.syms.length 0 t.syms.length = .ok l) :
    symfind_table t addr = .ok (some (t.syms.getD l ⟨"", 0⟩), t.base_offset) := by
  have hn : 0 < t.syms.length := by have := hwf.1; omega
  unfold symfind_table
  simp only []
  rw [if_neg (by omega), read_of_lt t.syms 0 ⟨"", 0⟩ hn]
  simp only []
  rw [if_neg (by unfold lookup_key value_at at h0; omega)]
  have hidx : (t.symcount - 1).toNat = t.syms.length - 1 := by have := hwf.1; omega
  rw [hidx, read_of_lt t.syms (t.syms.length - 1) ⟨"", 0⟩ (by omega)]
  simp only []
  rw [if_neg (by unfold lookup_key value_at at h1; omega), to_ulong_of_wf t hwf]
  unfold lookup_key at he
  rw [he]
  simp only []
  rw [read_of_lt t.syms l ⟨"", 0⟩ hl]

/-- C17. Binary search terminates in bounds, for a table whose `symcount` is
the number of its entries and at least 1, sorted or not. From every state
`left < right <= symcount`: neither `left + 1` nor `right + left` wraps, and
one evaluation of the condition and the body either leaves the loop because
`right <= left + 1`, or reads `syms[middle]` with `left < middle < right`
(so inside the table) and goes on with `right = middle` or `left = middle`
(a smaller `right - left`) or leaves the loop on an exact match. The loop of
`symfind` is the iteration of this step; from `left = 0`, `right = symcount`
it ends with an index below `symcount`, the same for every supply of fuel from
`symcount - 1` on, and after a passed range check `symfind` returns the symbol
at that index. -/
theorem binary_search_in_bounds (t : sym_table) (addr : Nat) (hwf : t.wf)
    (hc : 1 ≤ t.symcount) :
    (∀ left right, left < right → right ≤ t.syms.length →
      (left + 1) % WORD = left + 1 ∧ (right + left) % WORD = right + left ∧
      right + left < WORD ∧
      ((right ≤ left + 1 ∧
          symfind_iter t.syms (lookup_key t addr) left right = .ok (.exit left)) ∨
        (left + 1 < right ∧ left < (right + left) / 2 ∧ (right + left) / 2 < right ∧
          (right + left) / 2 < t.syms.length ∧
          read t.syms ((right + left) / 2) =
            .ok (t.syms.getD ((right + left) / 2) ⟨"", 0⟩) ∧
          ((value_at t.syms ((right + left) / 2) > lookup_key t addr ∧
              symfind_iter t.syms (lookup_key t addr) left right =
                .ok (.again left ((right + left) / 2))) ∨
            (value_at t.syms ((right + left) / 2) < lookup_key t addr ∧
              symfind_iter t.syms (lookup_key t addr) left right =
                .ok (.again ((right + left) / 2) right)) ∨
            (value_at t.syms ((right + left) / 2) = lookup_key t addr ∧
              symfind_iter t.syms (lookup_key t addr) left right =
                .ok (.exit ((right + left) / 2))))))) ∧
    (∀ fuel left right,
      symfind_loop t.syms (lookup_key t addr) (fuel + 1) left right =
        match symfind_iter t.syms (lookup_key t addr) left right with
        | .error e => .error e
        | .ok (.again l r) => symfind_loop t.syms (lookup_key t addr) fuel l r
        | .ok (.exit l) => .ok l) ∧
    (∃ l, l < t.syms.length ∧ (l : Int) < t.symcount ∧
      (∀ fuel, t.syms.length ≤ fuel + 1 →
        symfind_loop t.syms (lookup_key t addr) fuel 0 (to_ulong t.symcount) = .ok l) ∧
      read t.syms l = .ok (t.syms.getD l ⟨"", 0⟩) ∧
      (value_at t.syms 0 ≤ lookup_key t addr →
        lookup_key t addr ≤ value_at t.syms (t.syms.length - 1) →
        symfind_table t addr = .ok (some (t.syms.getD l ⟨"", 0⟩), t.base_offset))) := by
  have hn : 0 < t.syms.length := by have := hwf.1; omega
  have hlen : t.syms.length < 2 ^ 63 := by have := hwf.1; have := hwf.2; omega
  refine ⟨fun left right hlr hr =>
      symfind_iter_spec t.syms (lookup_key t addr) left right hlen hlr hr,
    fun fuel left right => symfind_loop_succ t.syms (lookup_key t addr) fuel left right, ?_⟩
  obtain ⟨l, _, hl, hall⟩ :=
    symfind_loop_total t.syms (lookup_key t addr) hlen (t.syms.length - 1) 0 t.syms.length hn
      (le_refl _) (by omega)
  refine ⟨l, hl, by have := hwf.1; omega, fun fuel hf => ?_, read_of_lt t.syms l ⟨"", 0⟩ hl,
    fun h0 h1 => ?_⟩
  · rw [to_ulong_of_wf t hwf]
    exact hall fuel (by omega)
  · exact symfind_table_of_loop t addr l hwf hc h0 h1 hl (hall t.syms.length (by omega))

/-- C17 on an unsorted table of three symbols and the key `0x30`. -/
theorem binary_search_in_bounds_witness :
    ∃ l, l < 3 ∧
      (∀ fuel, 3 ≤ fuel + 1 →
        symfind_loop [⟨"c", 0x30⟩, ⟨"a", 0x10⟩, ⟨"b", 0x40⟩] 0x30 fuel 0 3 = .ok l) ∧
      symfind_table ⟨3, [⟨"c", 0x30⟩, ⟨"a", 0x10⟩, ⟨"b", 0x40⟩], 0, 0⟩ 0x30 =
        .ok (some ([⟨"c", 0x30⟩, ⟨"a", 0x10⟩, ⟨"b", 0x40⟩].getD l ⟨"", 0⟩), 0) :=
  match (binary_search_in_bounds ⟨3, [⟨"c", 0x30⟩, ⟨"a", 0x10⟩, ⟨"b", 0x40⟩], 0, 0⟩ 0x30
      (by decide) (by decide)).2.2 with
  | ⟨l, hl, _, hall, _, htab⟩ => ⟨l, hl, hall, htab (by decide) (by decide)⟩

/-! ## Offset arithmetic and tables without symbols -/

theorem table_at_mem_registered (reg : registry) (j : Nat) (hwf : reg.wf)
    (hj : j < reg.nr_sym_tables) : table_at reg j ∈ registered reg := by
  unfold table_at registered
  have hjl : j < reg.sym_tables.length := lt_of_lt_of_le hj hwf
  rw [List.getD_eq_getElem _ _ hjl]
  have h1 : j < (reg.sym_tables.take reg.nr_sym_tables).length := by
    simp only [List.length_take]; omega
  have h2 : (reg.sym_tables.take reg.nr_sym_tables)[j] = reg.sym_tables[j] := by
    simp
  rw [← h2]
  exact List.getElem_mem _

/-- In a registry a run of `initialise_mem_map` built, every registered table
has `base_offset` 0 or equal to its `base_address`. -/
theorem built_offsets (env : libs) (lines : List scanned) (vars0 : locals) (st : map_state)
    (he : initialise_mem_map env lines vars0 initial_registry = .ok st) :
    st.reg.wf ∧ ∀ j, j < st.reg.nr_sym_tables →
      (table_at st.reg j).base_offset = 0 ∨
        (table_at st.reg j).base_offset = (table_at st.reg j).base_address := by
  have hw : initial_registry.sym_tables.length < WORD := by
    simp only [initial_registry, List.length_replicate]; decide
  obtain ⟨_, hrule, hle, hmap⟩ :=
    mem_map_loop_ok env lines ⟨true, vars0, initial_registry, []⟩ st
      (map_inv_initial env vars0 initial_registry rfl) hw he
  refine ⟨hle, fun j hj => ?_⟩
  have ht := table_at_mem_registered st.reg j hle hj
  have hm : ((table_at st.reg j).base_address, (table_at st.reg j).base_offset) ∈
      (registered st.reg).map (fun t => (t.base_address, t.base_offset)) :=
    List.mem_map.mpr ⟨_, ht, rfl⟩
  rw [hmap] at hm
  obtain ⟨c, hc, hce⟩ := List.mem_map.mp hm
  have := (first_rule_mem st.calls hrule).1 c (List.mem_filter.mp hc).1
  simp only [Prod.mk.injEq] at hce
  omega

/-- C19. No wraparound in the offset arithmetic, for a 64-bit address whose
chosen table has `base_offset` 0 or equal to its `base_address`: the
`base_offset` does not exceed the address, so the key is the difference
`addr - base_offset`; a symbol `symfind` returns has a value at most the key,
so the offset `__print_address` computes is the difference
`addr - base_offset - value`. The registered tables of every registry that
`initialise_mem_map` builds have such a `base_offset`. -/
theorem offset_no_wraparound (reg : registry) (addr bo0 k : Nat) (hreg : reg.wf)
    (haddr : addr < WORD) (hk : selects reg addr k)
    (hoff : (table_at reg k).base_offset = 0 ∨
      (table_at reg k).base_offset = (table_at reg k).base_address)
    (hwf : (table_at reg k).wf) :
    (table_at reg k).base_offset ≤ addr ∧
    lookup_key (table_at reg k) addr = addr - (table_at reg k).base_offset ∧
    (∀ s b, symfind reg addr bo0 = .ok (some s, b) →
      b = (table_at reg k).base_offset ∧ bfd_asymbol_value s ≤ addr - b ∧
      print_address_lookup reg addr bo0 = .ok (some (s, addr - b - bfd_asymbol_value s))) ∧
    (∀ (env : libs) (lines : List scanned) (vars0 : locals) (st : map_state),
      initialise_mem_map env lines vars0 initial_registry = .ok st →
      ∀ j, j < st.reg.nr_sym_tables →
        (table_at st.reg j).base_offset = 0 ∨
          (table_at st.reg j).base_offset = (table_at st.reg j).base_address) := by
  have hle : (table_at reg k).base_offset ≤ addr := by
    have := hk.2.1
    omega
  have hkey : lookup_key (table_at reg k) addr = addr - (table_at reg k).base_offset := by
    unfold lookup_key
    exact sub64_of_le _ _ hle haddr
  refine ⟨hle, hkey, fun s b h => ?_,
    fun env lines vars0 st he => (built_offsets env lines vars0 st he).2⟩
  have hsf := h
  rw [symfind_of_selects reg addr bo0 k hreg hk] at h
  by_cases hnull : (table_at reg k).symcount < 1 ∨
      lookup_key (table_at reg k) addr < value_at (table_at reg k).syms 0 ∨
      lookup_key (table_at reg k) addr >
        value_at (table_at reg k).syms ((table_at reg k).syms.length - 1)
  · rw [symfind_table_null _ addr hwf hnull] at h
    cases h
  · simp only [not_or, not_lt] at hnull
    obtain ⟨l, _, he, hv, _⟩ :=
      symfind_table_some _ addr hwf (by omega) hnull.2.1 (by omega)
    rw [he] at h
    cases h
    have hv1 : bfd_asymbol_value ((table_at reg k).syms.getD l ⟨"", 0⟩) ≤
        addr - (table_at reg k).base_offset := by
      rw [← hkey]; exact hv
    refine ⟨rfl, hv1, ?_⟩
    rw [print_address_lookup_of_symfind reg addr bo0 _ _ hsf,
      sub64_of_le addr _ hle haddr, sub64_of_le _ _ hv1 (by omega)]

/-- C19 on `reg_two` at the address `0x7f0050`, in the shared object. -/
theorem offset_no_wraparound_witness :
    (table_at reg_two 1).base_offset ≤ 0x7f0050 ∧
    lookup_key (table_at reg_two 1) 0x7f0050 = 0x7f0050 - (table_at reg_two 1).base_offset ∧
    print_address_lookup reg_two 0x7f0050 7 =
      .ok (some (⟨"b", 0x20⟩, 0x7f0050 - 0x7f0000 - 0x20)) :=
  have h := offset_no_wraparound reg_two 0x7f0050 7 1 (by decide) (by decide) (by decide)
    (by decide) (by decide)
  ⟨h.1, h.2.1, (h.2.2.1 ⟨"b", 0x20⟩ 0x7f0000 (by decide)).2.2⟩
theorem ok_of_check {α : Type} (r : Except fault α) (P : α → Prop) [DecidablePred P]
    (h : Except.map (fun a => decide (P a)) r = .ok true) : ∃ a, r = .ok a ∧ P a := by
  cases r with
  | error e => simp [Except.map] at h
  | ok a =>
    simp only [Except.map, Except.ok.injEq, decide_eq_true_eq] at h
    exact ⟨a, rfl, h⟩

/-- The range check on a table without symbols. -/
theorem symfind_table_empty (t : sym_table) (addr : Nat) (h : t.symcount < 1) :
    symfind_table t addr = .ok (none, t.base_offset) := by
  unfold symfind_table
  simp only []
  rw [if_pos h]

/-- What `build_symtab` does for an object without the flag `HAS_SYMS`:
nothing. -/
theorem build_symtab_no_syms
    (qsort : (asymbol → asymbol → Int) → List asymbol → List asymbol) (abfd : bfd)
    (syms0 : List asymbol) (symcount0 : Int) (h : abfd.has_syms = false) :
    build_symtab qsort abfd syms0 symcount0 = .ok (syms0, symcount0) := by
  unfold build_symtab
  simp [h]

/-- A call of `syminit` that returns without a fault either leaves the registry
as it is or fills entry `nr_sym_tables`, with the two addresses passed, and
increases `nr_sym_tables` by one. -/
theorem syminit_ok_cases (env : libs) (file : String) (ba bo : Nat) (reg reg1 : registry)
    (hlen : reg.sym_tables.length < WORD)
    (h : syminit env file ba bo TARGET reg = .ok reg1) :
    reg1 = reg ∨
    (reg.nr_sym_tables < reg.sym_tables.length ∧
      ∃ t, t.base_address = ba ∧ t.base_offset = bo ∧
        reg1 = ⟨reg.sym_tables.set reg.nr_sym_tables t, reg.nr_sym_tables + 1⟩) := by
  cases hop : opens env ⟨file, ba, bo⟩ with
  | false =>
    rw [syminit_closed env file ba bo reg hop] at h
    cases h
    exact Or.inl rfl
  | true =>
    by_cases hroom : reg.nr_sym_tables < reg.sym_tables.length
    · obtain ⟨abfd, hopen, hobj⟩ := (opens_iff env _).mp hop
      rw [syminit_open env file ba bo reg abfd hopen hobj hroom hlen] at h
      cases hb : build_symtab env.qsort abfd (table_at reg reg.nr_sym_tables).syms
          (table_at reg reg.nr_sym_tables).symcount with
      | error e => rw [hb] at h; cases h
      | ok r =>
        rw [hb] at h
        cases h
        exact Or.inr ⟨hroom, _, rfl, rfl, rfl⟩
    · rw [syminit_full env file ba bo reg hop (by omega)] at h
      cases h

/-- An iteration of the loop of `initialise_mem_map` that returns without a
fault leaves the registry as it is or adds one table in entry
`nr_sym_tables`. -/
theorem mem_map_line_reg (env : libs) (st st1 : map_state) (line : scanned)
    (hlen : st.reg.sym_tables.length < WORD) (h : mem_map_line env st line = .ok st1) :
    st1.reg = st.reg ∨
    (st.reg.nr_sym_tables < st.reg.sym_tables.length ∧
      ∃ t, st1.reg = ⟨st.reg.sym_tables.set st.reg.nr_sym_tables t,
        st.reg.nr_sym_tables + 1⟩) := by
  unfold mem_map_line at h
  simp only [] at h
  by_cases hx : ((sscanf_line line st.vars).perm.getD 2 NUL != 'x') = true
  · rw [if_pos hx] at h
    cases h
    exact Or.inl rfl
  · rw [if_neg hx] at h
    cases hs : syminit env (c_str (sscanf_line line st.vars).library)
        (sscanf_line line st.vars).start
        (if (st.first == true) = true then 0 else (sscanf_line line st.vars).start)
        TARGET st.reg with
    | error e => rw [hs] at h; cases h
    | ok reg1 =>
      rw [hs] at h
      cases h
      rcases syminit_ok_cases env _ _ _ st.reg reg1 hlen hs with h1 | ⟨hroom, t, _, _, h1⟩
      · exact Or.inl h1
      · exact Or.inr ⟨hroom, t, h1⟩

theorem fresh_initial : fresh initial_registry := by
  intro j _
  unfold table_at initial_registry
  simp only [List.getD_eq_getElem?_getD, List.getElem?_replicate]
  split_ifs <;> rfl

/-- A run of the loop of `initialise_mem_map` that returns without a fault
writes no entry from the final `nr_sym_tables` on. -/
theorem mem_map_loop_fresh (env : libs) :
    ∀ (lines : List scanned) (st st1 : map_state), fresh st.reg →
      st.reg.sym_tables.length < WORD → mem_map_loop env lines st = .ok st1 →
      fresh st1.reg := by
  intro lines
  induction lines with
  | nil =>
    intro st st1 hf _ h
    rw [mem_map_loop] at h
    cases h
    exact hf
  | cons line rest ih =>
    intro st st1 hf hlen h
    rw [mem_map_loop] at h
    cases he : mem_map_line env st line with
    | error e => rw [he] at h; cases h
    | ok st2 =>
      rw [he] at h
      rcases mem_map_line_reg env st st2 line hlen he with h1 | ⟨hroom, t, h1⟩
      · exact ih st2 st1 (by rw [h1]; exact hf) (by rw [h1]; exact hlen) h
      · refine ih st2 st1 ?_ (by rw [h1]; simpa using hlen) h
        rw [h1]
        intro j hj
        rw [table_at_set st.reg st.reg.nr_sym_tables j _ _ hroom]
        have hj1 : st.reg.nr_sym_tables + 1 ≤ j := hj
        rw [if_neg (by omega)]
        exact hf j (by omega)

set_option maxRecDepth 100000 in
/-- C20. Tables of objects without symbols. A call of `syminit` on a file that
opens as a recognised object whose symbols are readable, with a free entry in
the array, fills entry `nr_sym_tables` with the `base_address` and the
`base_offset` passed, leaves the other entries alone and increases
`nr_sym_tables` by one; for an object without the flag `HAS_SYMS` the entry
keeps its `symcount` and `syms`, which are 0 and empty in the entries from
`nr_sym_tables` on of every registry `initialise_mem_map` builds. An address whose chosen table has `symcount < 1` is unresolved. In
the registry built from `lines_stripped` the address `0x10090` chooses the
empty table at `0x10080` and is unresolved although the table at `0x10000`
holds the key between `foo` and `bar`. -/
theorem symbolless_table_registered :
    (∀ (env : libs) (file : String) (ba bo : Nat) (reg : registry) (abfd : bfd),
      env.bfd_openr file TARGET = some abfd → abfd.is_object = true → abfd.readable →
      reg.nr_sym_tables < reg.sym_tables.length → reg.sym_tables.length < WORD →
      ∃ reg1, syminit env file ba bo TARGET reg = .ok reg1 ∧
        reg1.nr_sym_tables = reg.nr_sym_tables + 1 ∧
        reg1.sym_tables.length = reg.sym_tables.length ∧
        (table_at reg1 reg.nr_sym_tables).base_address = ba ∧
        (table_at reg1 reg.nr_sym_tables).base_offset = bo ∧
        (∀ j, j ≠ reg.nr_sym_tables → table_at reg1 j = table_at reg j) ∧
        (abfd.has_syms = false →
          table_at reg1 reg.nr_sym_tables =
            { table_at reg reg.nr_sym_tables with base_address := ba, base_offset := bo })) ∧
    (zero_table.symcount = 0 ∧ zero_table.syms = [] ∧
      ∀ (env : libs) (lines : List scanned) (vars0 : locals) (st : map_state),
        initialise_mem_map env lines vars0 initial_registry = .ok st →
        ∀ j, st.reg.nr_sym_tables ≤ j → table_at st.reg j = zero_table) ∧
    (∀ (reg : registry) (addr bo0 k : Nat), reg.wf → selects reg addr k →
      (table_at reg k).symcount < 1 →
      symfind reg addr bo0 = .ok (none, (table_at reg k).base_offset)) ∧
    (symfind_table ⟨2, [sym_foo, sym_bar], 0x10000, 0⟩ 0x10090 = .ok (some sym_foo, 0) ∧
      ∃ st, initialise_mem_map env_two lines_stripped vars_zero initial_registry = .ok st ∧
        (st.reg.nr_sym_tables = 2 ∧
          table_at st.reg 0 = ⟨2, [sym_foo, sym_bar], 0x10000, 0⟩ ∧
          table_at st.reg 1 = ⟨0, [], 0x10080, 0x10080⟩ ∧
          symfind st.reg 0x10090 0 = .ok (none, 0x10080) ∧
          print_address_lookup st.reg 0x10090 0 = .ok none)) := by
  refine ⟨fun env file ba bo reg abfd hopen hobj hread hroom hlen => ?_,
    ⟨rfl, rfl, fun env lines vars0 st he =>
      mem_map_loop_fresh env lines ⟨true, vars0, initial_registry, []⟩ st fresh_initial
        (by simp only [initial_registry, List.length_replicate]; decide) he⟩,
    fun reg addr bo0 k hwf hk hc => ?_,
    ⟨by decide, ok_of_check _ _ (by decide)⟩⟩
  · rw [syminit_open env file ba bo reg abfd hopen hobj hroom hlen]
    obtain ⟨r, hr⟩ := build_symtab_readable env.qsort abfd
      (table_at reg reg.nr_sym_tables).syms (table_at reg reg.nr_sym_tables).symcount hread
    rw [hr]
    refine ⟨_, rfl, rfl, by simp, ?_, ?_, fun j hj => ?_, fun hs => ?_⟩
    · rw [table_at_set reg reg.nr_sym_tables reg.nr_sym_tables _ _ hroom]
      simp
    · rw [table_at_set reg reg.nr_sym_tables reg.nr_sym_tables _ _ hroom]
      simp
    · rw [table_at_set reg reg.nr_sym_tables j _ _ hroom]
      simp [hj]
    · rw [table_at_set reg reg.nr_sym_tables reg.nr_sym_tables _ _ hroom]
      rw [build_symtab_no_syms env.qsort abfd _ _ hs] at hr
      cases hr
      simp
  · rw [symfind_of_selects reg addr bo0 k hwf hk]
    exact symfind_table_empty _ addr hc

set_option maxRecDepth 100000 in
/-- C20 on the object without symbols `/lib/stripped.so`, registered in the
initial registry. -/
theorem symbolless_table_registered_witness :
    ∃ reg1, syminit env_two "/lib/stripped.so" 0x10080 0x10080 TARGET initial_registry =
        .ok reg1 ∧
      reg1.nr_sym_tables = initial_registry.nr_sym_tables + 1 ∧
      table_at reg1 initial_registry.nr_sym_tables =
        { table_at initial_registry initial_registry.nr_sym_tables with
          base_address := 0x10080, base_offset := 0x10080 } :=
  match symbolless_table_registered.1 env_two "/lib/stripped.so" 0x10080 0x10080
      initial_registry obj_stripped rfl rfl (fun h => absurd h (by decide)) (by decide)
      (by decide) with
  | ⟨reg1, he, hn, _, _, _, _, hs⟩ => ⟨reg1, he, hn, hs rfl⟩

/-! ## The base-offset rule and the regions of the listing -/

/-- A log of calls that follows the base-offset rule is fixed by the path
names and start addresses its calls pass. -/
theorem calls_eq_rule_calls (calls : List syminit_call) (hrule : first_rule calls) :
    calls = rule_calls (calls.map (fun c => (c.file, c.base_address))) := by
  cases calls with
  | nil => rfl
  | cons c rest =>
    obtain ⟨h0, hrest⟩ := hrule c rest rfl
    simp only [List.map_cons, rule_calls, List.map_map]
    congr 1
    · cases c
      simp only at h0
      simp [h0]
    · conv_lhs => rw [← List.map_id rest]
      apply List.map_congr_left
      intro d hd
      have := hrest d hd
      cases d
      simp only at this
      simp [this]

/-- The start addresses of the prescribed calls whose file opens are the start
addresses of the regions whose file opens. -/
theorem rule_calls_opened (env : libs) (rs : List (String × Nat)) :
    ((rule_calls rs).filter (opens env)).map (fun c => c.base_address) =
      (rs.filter (fun r => opens env ⟨r.1, r.2, 0⟩)).map (fun r => r.2) := by
  have hop : ∀ (f : String) (a b c d : Nat), opens env ⟨f, a, b⟩ = opens env ⟨f, c, d⟩ :=
    fun _ _ _ _ _ => rfl
  have hrest : ∀ l : List (String × Nat),
      ((l.map (fun q => (⟨q.1, q.2, q.2⟩ : syminit_call))).filter (opens env)).map
        (fun c => c.base_address) =
      (l.filter (fun r => opens env ⟨r.1, r.2, 0⟩)).map (fun r => r.2) := by
    intro l
    induction l with
    | nil => rfl
    | cons q l ih =>
      simp only [List.map_cons, List.filter_cons]
      rw [hop q.1 q.2 q.2 q.2 0]
      split
      · simp only [List.map_cons]; rw [ih]
      · exact ih
  cases rs with
  | nil => rfl
  | cons r rest =>
    simp only [rule_calls, List.filter_cons]
    split
    · simp only [List.map_cons]; rw [hrest]
    · exact hrest rest

/-- C5. Base-offset rule: a run of `initialise_mem_map` from the initial
registry ends without a fault when the listing has at most `MAX_SYMS` lines
and the objects are readable, and whenever a run ends without a fault: the
first call of `syminit` has `base_offset` 0 and every later call has
`base_offset` equal to the start address it passes as `base_address`; the
registered tables carry, in order, the `base_address` and `base_offset` of the
calls whose file opened; every registered table has `base_offset` 0 or equal
to its `base_address`, and every registered table but the first has
`base_offset` equal to its `base_address`. For a listing of well-formed lines
the calls are those for the executable lines, in listing order: the first with
the path name and start address of its line and `base_offset` 0, every later
one with the path name and start address of its line and `base_offset` equal
to that start address; and the `base_address` of the registered tables are, in
order, the start addresses of the executable lines whose file opened. -/
theorem base_offset_rule (env : libs) (lines : List scanned) (vars0 : locals) :
    (lines.length ≤ MAX_SYMS → env.readable →
      ∃ st, initialise_mem_map env lines vars0 initial_registry = .ok st) ∧
    (∀ st, initialise_mem_map env lines vars0 initial_registry = .ok st →
      first_rule st.calls ∧
      (registered st.reg).map (fun t => (t.base_address, t.base_offset)) =
        (st.calls.filter (opens env)).map (fun c => (c.base_address, c.base_offset)) ∧
      (∀ t ∈ registered st.reg, t.base_offset = 0 ∨ t.base_offset = t.base_address) ∧
      (∀ t ∈ (registered st.reg).tail, t.base_offset = t.base_address) ∧
      ((∀ line ∈ lines, well_formed line = true) →
        st.calls = rule_calls ((lines.filter executable).map region_of) ∧
        (registered st.reg).map (fun t => t.base_address) =
          ((lines.filter executable).filter (region_opens env)).map
            (fun line => (region_of line).2))) := by
  have hlen0 : initial_registry.sym_tables.length = MAX_SYMS := by
    simp [initial_registry]
  have hw : initial_registry.sym_tables.length < WORD := by
    simp only [hlen0]; decide
  refine ⟨fun hcap hread => ?_, fun st he => ?_⟩
  · exact mem_map_loop_total env hread lines ⟨true, vars0, initial_registry, []⟩
      (map_inv_initial env vars0 initial_registry rfl)
      (by simp only [hlen0]; simp only [initial_registry]; omega) hw
  · obtain ⟨_, hrule, _, hmap⟩ :=
      mem_map_loop_ok env lines ⟨true, vars0, initial_registry, []⟩ st
        (map_inv_initial env vars0 initial_registry rfl) hw he
    obtain ⟨hall, htail⟩ := first_rule_mem st.calls hrule
    refine ⟨hrule, hmap, fun t ht => ?_, fun t ht => ?_, fun hwf => ?_⟩
    · have hm : (t.base_address, t.base_offset) ∈
          (registered st.reg).map (fun t => (t.base_address, t.base_offset)) :=
        List.mem_map.mpr ⟨t, ht, rfl⟩
      rw [hmap] at hm
      obtain ⟨c, hc, hce⟩ := List.mem_map.mp hm
      have := hall c (List.mem_filter.mp hc).1
      simp only [Prod.mk.injEq] at hce
      omega
    · have hm : (t.base_address, t.base_offset) ∈
          ((registered st.reg).map (fun t => (t.base_address, t.base_offset))).tail := by
        rw [← List.map_tail]
        exact List.mem_map.mpr ⟨t, ht, rfl⟩
      rw [hmap, ← List.map_tail] at hm
      obtain ⟨c, hc, hce⟩ := List.mem_map.mp hm
      have := htail c (tail_filter_subset _ _ c hc)
      simp only [Prod.mk.injEq] at hce
      omega
    · have hlog := mem_map_loop_calls env lines ⟨true, vars0, initial_registry, []⟩ st hwf he
      simp only [List.map_nil, List.nil_append] at hlog
      have hcalls : st.calls = rule_calls ((lines.filter executable).map region_of) := by
        rw [← hlog]
        exact calls_eq_rule_calls st.calls hrule
      refine ⟨hcalls, ?_⟩
      have h1 : (registered st.reg).map (fun t => t.base_address) =
          ((registered st.reg).map (fun t => (t.base_address, t.base_offset))).map
            (fun p => p.1) := by
        rw [List.map_map]; rfl
      rw [h1, hmap, List.map_map, hcalls]
      have h2 := rule_calls_opened env ((lines.filter executable).map region_of)
      have h3 : ((fun p : Nat × Nat => p.1) ∘
          fun c : syminit_call => (c.base_address, c.base_offset)) =
          fun c => c.base_address := rfl
      rw [h3, h2, List.filter_map, List.map_map]
      rfl

set_option maxRecDepth 100000 in
/-- C5 on the listing `lines_two`: the run ends, its calls are the one for
`/bin/prog` at `0x10000` with `base_offset` 0 and the one for `/lib/baz.so` at
`0x7f0000` with `base_offset` `0x7f0000`, and the two tables are registered at
these start addresses. -/
theorem base_offset_rule_witness :
    ∃ st, initialise_mem_map env_two lines_two vars_zero initial_registry = .ok st ∧
      first_rule st.calls ∧
      (registered st.reg).map (fun t => (t.base_address, t.base_offset)) =
        (st.calls.filter (opens env_two)).map (fun c => (c.base_address, c.base_offset)) ∧
      (∀ t ∈ registered st.reg, t.base_offset = 0 ∨ t.base_offset = t.base_address) ∧
      (∀ t ∈ (registered st.reg).tail, t.base_offset = t.base_address) ∧
      st.calls = [⟨"/bin/prog", 0x10000, 0⟩, ⟨"/lib/baz.so", 0x7f0000, 0x7f0000⟩] ∧
      (registered st.reg).map (fun t => t.base_address) = [0x10000, 0x7f0000] :=
  have h := base_offset_rule env_two lines_two vars_zero
  match h.1 (by decide) env_two_readable with
  | ⟨st, he⟩ =>
    match h.2 st he with
    | ⟨h1, h2, h3, h4, h5⟩ => ⟨st, he, h1, h2, h3, h4, h5 (by decide)⟩

/-! ## The sorted-table invariant -/

/-- The test `symcmp (a, b) <= 0` is total. -/
theorem symcmp_total (a b : asymbol) : symcmp a b ≤ 0 ∨ symcmp b a ≤ 0 := by
  simp only [symcmp_le_zero_iff]
  exact Nat.le_total _ _

/-- The test `symcmp (a, b) <= 0` is transitive. -/
theorem symcmp_trans (a b c : asymbol) (h1 : symcmp a b ≤ 0) (h2 : symcmp b c ≤ 0) :
    symcmp a c ≤ 0 := by
  simp only [symcmp_le_zero_iff] at h1 h2 ⊢
  exact Nat.le_trans h1 h2

/-- A `qsort` that arranges by the test `compar (a, b) <= 0` sorts symbol
arrays with `symcmp`. -/
theorem qsort_orders_sorts (qsort : (asymbol → asymbol → Int) → List asymbol → List asymbol)
    (hq : qsort_orders qsort) : qsort_sorts qsort := by
  intro base
  obtain ⟨hp, hs⟩ := hq symcmp symcmp_total symcmp_trans base
  exact ⟨hp, List.Pairwise.imp (fun {a b} h => (symcmp_le_zero_iff a b).mp h) hs⟩

/-- The model `qsort_le` arranges by the test `compar (a, b) <= 0`. -/
theorem qsort_le_orders : qsort_orders qsort_le := by
  intro compar htot htr base
  haveI : IsTotal asymbol (fun a b => compar a b ≤ 0) := ⟨htot⟩
  haveI : IsTrans asymbol (fun a b => compar a b ≤ 0) := ⟨htr⟩
  exact ⟨List.perm_insertionSort _ base,
    List.sorted_insertionSort (fun a b => compar a b ≤ 0) base⟩

/-- A `qsort` that arranges by the test `compar (a, b) <= 0` keeps the
contract of the C standard. -/
theorem qsort_orders_conforms
    (qsort : (asymbol → asymbol → Int) → List asymbol → List asymbol)
    (hq : qsort_orders qsort) : qsort_conforms qsort := by
  intro compar hc base
  obtain ⟨hanti, htrans⟩ := hc
  refine hq compar (fun a b => ?_) htrans base
  by_cases h : compar a b ≤ 0
  · exact Or.inl h
  · right
    have := (hanti b a).mpr (by omega)
    omega

theorem to_ulong_length (n : Nat) (h : n < 2 ^ 63) : to_ulong (n : Int) = n := by
  unfold to_ulong
  have hw : (WORD : Int) = 18446744073709551616 := by simp [WORD]
  rw [hw]
  omega

/-- What `build_symtab` leaves for an object with the flag `HAS_SYMS` whose
symbols are read: the count of the extracted symbols, and the array `qsort`
leaves for them (the array as it was when there is no symbol). -/
theorem build_symtab_extracted
    (qsort : (asymbol → asymbol → Int) → List asymbol → List asymbol) (abfd : bfd)
    (syms0 : List asymbol) (symcount0 : Int) (hs : abfd.has_syms = true)
    (hread : abfd.readable) (hb : (extracted abfd).length < 2 ^ 63) :
    build_symtab qsort abfd syms0 symcount0 =
      .ok (if extracted abfd = [] then qsort symcmp [] ++ syms0
        else qsort symcmp (extracted abfd), ((extracted abfd).length : Int)) := by
  obtain ⟨h1, h2⟩ := hread hs
  unfold build_symtab
  simp only [hs, Bool.not_true, Bool.false_eq_true, if_false, bfd_read_minisymbols]
  cases hst : abfd.static_syms with
  | none => exact absurd hst h1
  | some l =>
    cases l with
    | nil =>
      simp only [beq_self_eq_true, if_true]
      cases hdy : abfd.dynamic_syms with
      | none => exact absurd hdy (h2 hst)
      | some d =>
        have hx : extracted abfd = d := by simp [extracted, hst, hdy]
        rw [hx] at hb ⊢
        cases d with
        | nil =>
          simp [qsort_call, to_ulong]
        | cons y ys =>
          simp only [qsort_call, to_ulong_length _ hb, le_refl, if_true, List.take_length,
            List.drop_length, List.append_nil]
          simp
    | cons x xs =>
      have hx : extracted abfd = x :: xs := by simp [extracted, hst]
      rw [hx] at hb ⊢
      have hne : ((((x :: xs).length : Nat) : Int) == 0) = false := by
        simp only [List.length_cons, beq_eq_false_iff_ne, ne_eq]
        omega
      rw [hne]
      simp only [Bool.false_eq_true, if_false, qsort_call, to_ulong_length _ hb, le_refl, if_true,
        List.take_length, List.drop_length, List.append_nil]
      simp

/-- Reading the symbols of an object that is not readable, into an empty
array, makes `qsort` access the array past its end. -/
theorem build_symtab_unreadable
    (qsort : (asymbol → asymbol → Int) → List asymbol → List asymbol) (abfd : bfd)
    (hn : ¬ abfd.readable) : build_symtab qsort abfd [] 0 = .error .out_of_bounds := by
  have hs : abfd.has_syms = true := by
    by_contra h
    exact hn (fun h1 => absurd h1 h)
  have hbig : ¬ to_ulong (-1) ≤ 0 := by decide
  unfold build_symtab
  simp only [hs, Bool.not_true, Bool.false_eq_true, if_false, bfd_read_minisymbols]
  cases hst : abfd.static_syms with
  | none =>
    have hne : ((-1 : Int) == 0) = false := by decide
    simp only [hne, Bool.false_eq_true, if_false, qsort_call, List.length_nil, if_neg hbig]
  | some l =>
    cases l with
    | nil =>
      simp only [beq_self_eq_true, if_true]
      cases hdy : abfd.dynamic_syms with
      | none =>
        simp only [qsort_call, List.length_nil, if_neg hbig]
      | some d =>
        exact absurd (fun _ => ⟨by simp [hst], fun _ => by simp [hdy]⟩) hn
    | cons x xs =>
      exact absurd (fun _ => ⟨by simp [hst], fun h => by simp [hst] at h⟩) hn

/-- The table `build_symtab` leaves in a zeroed entry, with a `qsort` that
arranges by the test `compar (a, b) <= 0`: its count is the number of its
symbols, and its symbols are in ascending order of value. -/
theorem build_symtab_fresh_sorted
    (qsort : (asymbol → asymbol → Int) → List asymbol → List asymbol)
    (hq : qsort_orders qsort) (abfd : bfd) (hb : (extracted abfd).length < 2 ^ 63)
    (r : List asymbol × Int) (h : build_symtab qsort abfd [] 0 = .ok r) :
    r.2 = (r.1.length : Int) ∧ r.2 < 2 ^ 63 ∧
      r.1.Pairwise (fun a b => bfd_asymbol_value a ≤ bfd_asymbol_value b) := by
  cases hs : abfd.has_syms with
  | false =>
    rw [build_symtab_no_syms qsort abfd [] 0 hs] at h
    cases h
    exact ⟨rfl, by decide, List.Pairwise.nil⟩
  | true =>
    by_cases hread : abfd.readable
    · rw [build_symtab_extracted qsort abfd [] 0 hs hread hb] at h
      cases h
      have hnil : qsort symcmp [] = [] :=
        List.Perm.eq_nil (hq symcmp symcmp_total symcmp_trans []).1
      obtain ⟨hp, hsort⟩ := qsort_orders_sorts qsort hq (extracted abfd)
      by_cases hx : extracted abfd = []
      · rw [if_pos hx, hx, hnil]
        exact ⟨rfl, by decide, List.Pairwise.nil⟩
      · simp only [hx, if_false]
        refine ⟨by rw [hp.length_eq], ?_, hsort⟩
        exact_mod_cast hb
    · rw [build_symtab_unreadable qsort abfd hread] at h
      cases h

/-- A call of `syminit` on a registry whose free entries are zeroed, with a
`qsort` that arranges by the test `compar (a, b) <= 0`: the table it registers
is well formed and sorted, and the tables registered before stay. -/
theorem syminit_sorted (env : libs) (hq : qsort_orders env.qsort) (hb : env.bounded)
    (file : String) (ba bo : Nat) (reg reg1 : registry)
    (hlen : reg.sym_tables.length < WORD) (hf : fresh reg)
    (hinv : ∀ t ∈ registered reg, t.wf ∧ t.sorted)
    (h : syminit env file ba bo TARGET reg = .ok reg1) :
    ∀ t ∈ registered reg1, t.wf ∧ t.sorted := by
  cases hop : opens env ⟨file, ba, bo⟩ with
  | false =>
    rw [syminit_closed env file ba bo reg hop] at h
    cases h
    exact hinv
  | true =>
    by_cases hroom : reg.nr_sym_tables < reg.sym_tables.length
    · obtain ⟨abfd, hopen, hobj⟩ := (opens_iff env _).mp hop
      rw [syminit_open env file ba bo reg abfd hopen hobj hroom hlen,
        hf reg.nr_sym_tables (le_refl _)] at h
      cases hbs : build_symtab env.qsort abfd zero_table.syms zero_table.symcount with
      | error e => rw [hbs] at h; cases h
      | ok r =>
        rw [hbs] at h
        cases h
        obtain ⟨h1, h2, h3⟩ :=
          build_symtab_fresh_sorted env.qsort hq abfd (hb file abfd hopen) r hbs
        intro t ht
        simp only [registered] at ht
        rw [take_succ_set _ _ _ hroom] at ht
        rcases List.mem_append.mp ht with ht | ht
        · exact hinv t ht
        · rw [List.mem_singleton.mp ht]
          exact ⟨⟨h1, h2⟩, h3⟩
    · rw [syminit_full env file ba bo reg hop (by omega)] at h
      cases h

/-- An iteration of the loop of `initialise_mem_map` keeps the registered
tables well formed and sorted. -/
theorem mem_map_line_sorted (env : libs) (hq : qsort_orders env.qsort) (hb : env.bounded)
    (st st1 : map_state) (line : scanned)
    (hlen : st.reg.sym_tables.length < WORD) (hf : fresh st.reg)
    (hinv : ∀ t ∈ registered st.reg, t.wf ∧ t.sorted)
    (h : mem_map_line env st line = .ok st1) :
    ∀ t ∈ registered st1.reg, t.wf ∧ t.sorted := by
  unfold mem_map_line at h
  simp only [] at h
  by_cases hx : ((sscanf_line line st.vars).perm.getD 2 NUL != 'x') = true
  · rw [if_pos hx] at h
    cases h
    exact hinv
  · rw [if_neg hx] at h
    cases hs : syminit env (c_str (sscanf_line line st.vars).library)
        (sscanf_line line st.vars).start
        (if (st.first == true) = true then 0 else (sscanf_line line st.vars).start)
        TARGET st.reg with
    | error e => rw [hs] at h; cases h
    | ok reg1 =>
      rw [hs] at h
      cases h
      exact syminit_sorted env hq hb _ _ _ st.reg reg1 hlen hf hinv hs

/-- A run of the loop of `initialise_mem_map` keeps the registered tables well
formed and sorted. -/
theorem mem_map_loop_sorted (env : libs) (hq : qsort_orders env.qsort) (hb : env.bounded) :
    ∀ (lines : List scanned) (st st1 : map_state),
      st.reg.sym_tables.length < WORD → fresh st.reg →
      (∀ t ∈ registered st.reg, t.wf ∧ t.sorted) → mem_map_loop env lines st = .ok st1 →
      ∀ t ∈ registered st1.reg, t.wf ∧ t.sorted := by
  intro lines
  induction lines with
  | nil =>
    intro st st1 _ _ hinv h
    rw [mem_map_loop] at h
    cases h
    exact hinv
  | cons line rest ih =>
    intro st st1 hlen hf hinv h
    rw [mem_map_loop] at h
    cases he : mem_map_line env st line with
    | error e => rw [he] at h; cases h
    | ok st2 =>
      rw [he] at h
      have hf2 : fresh st2.reg :=
        mem_map_loop_fresh env [line] st st2 hf hlen (by simp [mem_map_loop, he])
      have hl2 : st2.reg.sym_tables.length < WORD := by
        rcases mem_map_line_reg env st st2 line hlen he with h1 | ⟨_, t, h1⟩
        · rw [h1]; exact hlen
        · rw [h1]; simpa using hlen
      exact ih st2 st1 hl2 hf2 (mem_map_line_sorted env hq hb st st2 line hlen hf hinv he) h

theorem env_two_bounded : env_two.bounded := by
  intro file abfd h
  simp only [env_two] at h
  split_ifs at h <;> cases h <;> decide

/-- C6. Sorted-table invariant, for a C library whose `qsort` arranges the
array by the test `compar (a, b) <= 0`: for every object with the flag
`HAS_SYMS` whose symbols are read, `build_symtab` returns, sets `*symcount` to
the number of extracted symbols and leaves in the table a permutation of the
extracted symbols in ascending order of value; and in every registry a run of
`initialise_mem_map` builds from the initial registry (a run over at most
`MAX_SYMS` lines and readable objects ends without a fault) every registered
table has `symcount` equal to the number of its symbols and is sorted in
ascending order of value. The test `symcmp (a, b) <= 0` is the order of the
values although `symcmp` returns no negative number; a `qsort` that arranges
by another test is not covered. -/
theorem build_symtab_sorted (env : libs) (hq : qsort_orders env.qsort) :
    (∀ abfd syms0 symcount0, abfd.has_syms = true → abfd.readable →
      (extracted abfd).length < 2 ^ 63 →
      ∃ syms, build_symtab env.qsort abfd syms0 symcount0 =
          .ok (syms, ((extracted abfd).length : Int)) ∧
        (syms.take (extracted abfd).length).Perm (extracted abfd) ∧
        (syms.take (extracted abfd).length).Pairwise
          (fun a b => bfd_asymbol_value a ≤ bfd_asymbol_value b)) ∧
    (∀ lines vars0, env.bounded →
      (lines.length ≤ MAX_SYMS → env.readable →
        ∃ st, initialise_mem_map env lines vars0 initial_registry = .ok st) ∧
      (∀ st, initialise_mem_map env lines vars0 initial_registry = .ok st →
        ∀ t ∈ registered st.reg, t.wf ∧ t.sorted)) := by
  have hlen0 : initial_registry.sym_tables.length = MAX_SYMS := by
    simp [initial_registry]
  have hw : initial_registry.sym_tables.length < WORD := by
    simp only [hlen0]; decide
  refine ⟨fun abfd syms0 symcount0 hs hread hb => ?_, fun lines vars0 hb => ⟨?_, ?_⟩⟩
  · obtain ⟨hp, hsort⟩ := qsort_orders_sorts env.qsort hq (extracted abfd)
    refine ⟨_, build_symtab_extracted env.qsort abfd syms0 symcount0 hs hread hb, ?_⟩
    by_cases hx : extracted abfd = []
    · simp [hx]
    · simp only [hx, if_false]
      rw [← hp.length_eq, List.take_length]
      exact ⟨hp, hsort⟩
  · intro hcap hread
    exact mem_map_loop_total env hread lines ⟨true, vars0, initial_registry, []⟩
      (map_inv_initial env vars0 initial_registry rfl)
      (by simp only [hlen0]; simp only [initial_registry]; omega) hw
  · intro st he
    exact mem_map_loop_sorted env hq hb lines ⟨true, vars0, initial_registry, []⟩ st hw
      fresh_initial (by simp [registered, initial_registry]) he

set_option maxRecDepth 100000 in
/-- C6 on the executable whose symbol table lists `bar` before `foo`, with the
`qsort` model `qsort_le`: `build_symtab` leaves `foo`, `bar`, and the tables
of the registry built for the listing `lines_two` are sorted. -/
theorem build_symtab_sorted_witness :
    build_symtab env_two.qsort obj_prog [] 0 = .ok ([sym_foo, sym_bar], 2) ∧
    (∃ syms, build_symtab env_two.qsort obj_prog [] 0 = .ok (syms, 2) ∧
      (syms.take 2).Perm [sym_bar, sym_foo] ∧
      (syms.take 2).Pairwise (fun a b => bfd_asymbol_value a ≤ bfd_asymbol_value b)) ∧
    (∃ st, initialise_mem_map env_two lines_two vars_zero initial_registry = .ok st ∧
      ∀ t ∈ registered st.reg, t.wf ∧ t.sorted) :=
  have h := build_symtab_sorted env_two qsort_le_orders
  have h2 := h.2 lines_two vars_zero env_two_bounded
  ⟨by decide, h.1 obj_prog [] 0 rfl (fun _ => ⟨by decide, by decide⟩) (by decide),
    match h2.1 (by decide) env_two_readable with
    | ⟨st, he⟩ => ⟨st, he, h2.2 st he⟩⟩

end Ascii
